import Mathlib

/-!
Shallow embedding of the semantic core of the `xdrgen` XDR code generator
(`src/xdrgen/src/spec/mod.rs`, `src/xdrgen/src/lib.rs`) and of the error type
of the `xdr-codec` runtime (`src/xdr-codec/src/error.rs`).

The embedding models:
  * the AST (`Value`, `Type`, `Decl`, `EnumDefn`, `UnionCase`, `Defn`);
  * the `Derives` auto-property bitset;
  * the symbol table (`Symtab`, built over name-sorted maps: Rust `BTreeMap`
    iterates in key order, modelled here as sorted association lists);
  * the type analyses `is_prim`, `is_boxed` and the memoized `derivable`;
  * the emitters: `Typespec::define` (error behaviour), `Type::as_token`
    (rendered type tokens), `Typespec::pack` / `Typespec::unpack` (what
    implementation, if any, is emitted), together with the run-time semantics
    of the emitted union/enum pack and unpack match expressions;
  * the top-level `generate` driver's emission order.

Functions in the Rust source that recurse through the symbol table
(`is_prim`, `is_boxed`, the `Ident` case of `derivable`) can diverge on
cyclic definitions; they are modelled with an explicit fuel parameter,
returning `none` (or a dedicated `fuelOut` error) when fuel is exhausted.
Doc comments are dropped from the model: they only influence emitted
documentation text, never the analysed structure.
-/

namespace XdrGen

/-- `Derives` bitset from `spec/mod.rs` (default feature set: COPY, CLONE,
DEBUG, EQ, PARTIALEQ). Modelled as one Bool per flag. -/
structure Derives where
  copy : Bool
  clone : Bool
  debug : Bool
  eq : Bool
  partialEq : Bool
  deriving DecidableEq, Repr

namespace Derives

/-- `Derives::empty()` -/
def empty : Derives := ⟨false, false, false, false, false⟩

/-- `Derives::all()` -/
def all : Derives := ⟨true, true, true, true, true⟩

/-- `Derives::COPY` -/
def COPY : Derives := ⟨true, false, false, false, false⟩

/-- bitwise `&` on `Derives` -/
def inter (a b : Derives) : Derives :=
  ⟨a.copy && b.copy, a.clone && b.clone, a.debug && b.debug,
   a.eq && b.eq, a.partialEq && b.partialEq⟩

/-- `a & !COPY`: clear the COPY bit. -/
def minusCopy (a : Derives) : Derives :=
  ⟨false, a.clone, a.debug, a.eq, a.partialEq⟩

/-- `EQ | PARTIALEQ | COPY | CLONE | DEBUG` — the set used for byte arrays
and enums in `derivable`. -/
def fullSet : Derives := ⟨true, true, true, true, true⟩

/-- `PARTIALEQ | COPY | CLONE | DEBUG` — the set for `Float`/`Double`. -/
def floatSet : Derives := ⟨true, true, true, false, true⟩

end Derives

/-- `Value` from `spec/mod.rs`: a compile-time scalar. -/
inductive Value where
  | ident (name : String)
  | const (n : Int)
  deriving DecidableEq, Repr

/-- `EnumDefn(name, Option<Value>, Option<Comment>)`, comment dropped. -/
structure EnumDefn where
  name : String
  val : Option Value
  deriving DecidableEq, Repr

mutual

/-- `Type` from `spec/mod.rs`. -/
inductive Ty where
  | uint
  | int
  | uhyper
  | hyper
  | float
  | double
  | quadruple
  | bool
  | Opaque
  | string
  | enum (defs : List EnumDefn)
  | struct (decls : List Decl)
  | union (sel : Decl) (cases : List (Value × Decl)) (defl : Option Decl)
  | option (inner : Ty)
  | array (inner : Ty) (len : Value)
  | flex (inner : Ty) (maxsz : Option Value)
  | ident (name : String) (derives : Option Derives)

/-- `Decl` from `spec/mod.rs`, comment dropped. -/
inductive Decl where
  | void
  | named (name : String) (ty : Ty)

end

/-- `UnionCase(Value, Decl)`. -/
abbrev UnionCase := Value × Decl

/-! Structural equality for the mutual `Ty`/`Decl` family.  The deriving
handler does not support mutual inductives, and a directly recursive
definition is compiled by well-founded recursion, which does not reduce;
so equality is fuel-indexed (any fuel above the term's size suffices),
with soundness and reflexivity lemmas giving a computable `DecidableEq`. -/

mutual

def Ty.beqF : Nat → Ty → Ty → Bool
  | 0, _, _ => false
  | f + 1, t, u =>
    match t, u with
    | .uint, .uint => true
    | .int, .int => true
    | .uhyper, .uhyper => true
    | .hyper, .hyper => true
    | .float, .float => true
    | .double, .double => true
    | .quadruple, .quadruple => true
    | .bool, .bool => true
    | .Opaque, .Opaque => true
    | .string, .string => true
    | .enum ds, .enum es => decide (ds = es)
    | .struct ds, .struct es => Decl.beqListF f ds es
    | .union s cs d, .union s' cs' d' =>
      Decl.beqF f s s' && Decl.beqCasesF f cs cs' && Decl.beqOptF f d d'
    | .option t1, .option t2 => Ty.beqF f t1 t2
    | .array t1 l, .array t2 l' => Ty.beqF f t1 t2 && decide (l = l')
    | .flex t1 m, .flex t2 m' => Ty.beqF f t1 t2 && decide (m = m')
    | .ident n d, .ident n' d' => decide (n = n') && decide (d = d')
    | _, _ => false

def Decl.beqF : Nat → Decl → Decl → Bool
  | 0, _, _ => false
  | f + 1, d, d' =>
    match d, d' with
    | .void, .void => true
    | .named n t, .named n' t' => decide (n = n') && Ty.beqF f t t'
    | _, _ => false

def Decl.beqListF : Nat → List Decl → List Decl → Bool
  | 0, _, _ => false
  | _ + 1, [], [] => true
  | f + 1, d :: ds, e :: es => Decl.beqF f d e && Decl.beqListF f ds es
  | _ + 1, _, _ => false

def Decl.beqCasesF : Nat → List (Value × Decl) → List (Value × Decl) → Bool
  | 0, _, _ => false
  | _ + 1, [], [] => true
  | f + 1, c :: cs, c' :: cs' =>
    decide (c.1 = c'.1) && Decl.beqF f c.2 c'.2 && Decl.beqCasesF f cs cs'
  | _ + 1, _, _ => false

def Decl.beqOptF : Nat → Option Decl → Option Decl → Bool
  | 0, _, _ => false
  | _ + 1, none, none => true
  | f + 1, some d, some d' => Decl.beqF f d d'
  | _ + 1, _, _ => false

end

/-! Structural sizes, used only to pick a sufficient fuel for equality. -/

mutual

def Ty.tsize : Ty → Nat
  | .uint | .int | .uhyper | .hyper | .float | .double | .quadruple | .bool
  | .Opaque | .string => 1
  | .enum _ => 1
  | .struct ds => 1 + Decl.szList ds
  | .union s cs d => 1 + Decl.dsize s + Decl.szCases cs + Decl.szOpt d
  | .option t => 1 + Ty.tsize t
  | .array t _ => 1 + Ty.tsize t
  | .flex t _ => 1 + Ty.tsize t
  | .ident _ _ => 1

def Decl.dsize : Decl → Nat
  | .void => 1
  | .named _ t => 1 + Ty.tsize t

def Decl.szList : List Decl → Nat
  | [] => 1
  | d :: ds => 1 + Decl.dsize d + Decl.szList ds

def Decl.szCases : List (Value × Decl) → Nat
  | [] => 1
  | c :: cs => 1 + Decl.dsize c.2 + Decl.szCases cs

def Decl.szOpt : Option Decl → Nat
  | none => 1
  | some d => 1 + Decl.dsize d

end

theorem beqF_sound : ∀ f : Nat,
    (∀ a b : Ty, Ty.beqF f a b = true → a = b) ∧
    (∀ a b : Decl, Decl.beqF f a b = true → a = b) ∧
    (∀ a b : List Decl, Decl.beqListF f a b = true → a = b) ∧
    (∀ a b : List (Value × Decl), Decl.beqCasesF f a b = true → a = b) ∧
    (∀ a b : Option Decl, Decl.beqOptF f a b = true → a = b) := by
  intro f
  induction f with
  | zero =>
    refine ⟨?_, ?_, ?_, ?_, ?_⟩ <;> intro a b h <;>
      simp [Ty.beqF, Decl.beqF, Decl.beqListF, Decl.beqCasesF, Decl.beqOptF] at h
  | succ f ih =>
    obtain ⟨ihT, ihD, ihL, ihC, ihO⟩ := ih
    refine ⟨?_, ?_, ?_, ?_, ?_⟩
    · intro a b h
      cases a <;> cases b <;>
        simp only [Ty.beqF, decide_eq_true_eq, Bool.and_eq_true,
          Bool.false_eq_true] at h
      case enum.enum ds es => rw [h]
      case struct.struct ds es => rw [ihL ds es h]
      case union.union s cs d s' cs' d' =>
        rw [ihD s s' h.1.1, ihC cs cs' h.1.2, ihO d d' h.2]
      case option.option t t' => rw [ihT t t' h]
      case array.array t l t' l' => rw [ihT t t' h.1, h.2]
      case flex.flex t m t' m' => rw [ihT t t' h.1, h.2]
      case ident.ident n d n' d' => rw [h.1, h.2]
      all_goals rfl
    · intro a b h
      cases a <;> cases b <;>
        simp only [Decl.beqF, decide_eq_true_eq, Bool.and_eq_true,
          Bool.false_eq_true] at h
      case void.void => rfl
      case named.named n t n' t' => rw [h.1, ihT t t' h.2]
    · intro a b h
      cases a <;> cases b <;>
        simp only [Decl.beqListF, Bool.and_eq_true, Bool.false_eq_true] at h
      case nil.nil => rfl
      case cons.cons d ds e es => rw [ihD d e h.1, ihL ds es h.2]
    · intro a b h
      cases a <;> cases b <;>
        simp only [Decl.beqCasesF, decide_eq_true_eq, Bool.and_eq_true,
          Bool.false_eq_true] at h
      case nil.nil => rfl
      case cons.cons c cs c' cs' =>
        obtain ⟨v, d⟩ := c
        obtain ⟨v', d'⟩ := c'
        obtain ⟨⟨h1, h2⟩, h3⟩ := h
        dsimp only at h1 h2
        rw [h1, ihD d d' h2, ihC cs cs' h3]
    · intro a b h
      cases a <;> cases b <;>
        simp only [Decl.beqOptF, Bool.false_eq_true] at h
      case none.none => rfl
      case some.some d d' => rw [ihD d d' h]

theorem beqF_refl : ∀ f : Nat,
    (∀ a : Ty, Ty.tsize a < f → Ty.beqF f a a = true) ∧
    (∀ a : Decl, Decl.dsize a < f → Decl.beqF f a a = true) ∧
    (∀ a : List Decl, Decl.szList a < f → Decl.beqListF f a a = true) ∧
    (∀ a : List (Value × Decl), Decl.szCases a < f → Decl.beqCasesF f a a = true) ∧
    (∀ a : Option Decl, Decl.szOpt a < f → Decl.beqOptF f a a = true) := by
  intro f
  induction f with
  | zero => refine ⟨?_, ?_, ?_, ?_, ?_⟩ <;> intro a h <;> omega
  | succ f ih =>
    obtain ⟨ihT, ihD, ihL, ihC, ihO⟩ := ih
    refine ⟨?_, ?_, ?_, ?_, ?_⟩
    · intro a h
      cases a <;>
        simp only [Ty.beqF, Bool.and_eq_true, decide_eq_true_eq] <;>
        simp only [Ty.tsize] at h
      case struct ds => exact ihL ds (by omega)
      case union s cs d =>
        exact ⟨⟨ihD s (by omega), ihC cs (by omega)⟩, ihO d (by omega)⟩
      case option t => exact ihT t (by omega)
      case array t l => exact ⟨ihT t (by omega), trivial⟩
      case flex t m => exact ⟨ihT t (by omega), trivial⟩
      case ident n d => exact ⟨trivial, trivial⟩
    · intro a h
      cases a <;> simp only [Decl.beqF, Bool.and_eq_true, decide_eq_true_eq] <;>
        simp only [Decl.dsize] at h
      case named n t => exact ⟨trivial, ihT t (by omega)⟩
    · intro a h
      cases a <;>
        simp only [Decl.beqListF, Bool.and_eq_true] <;>
        simp only [Decl.szList] at h
      case cons d ds => exact ⟨ihD d (by omega), ihL ds (by omega)⟩
    · intro a h
      cases a <;>
        simp only [Decl.beqCasesF, Bool.and_eq_true, decide_eq_true_eq] <;>
        simp only [Decl.szCases] at h
      case cons c cs =>
        exact ⟨⟨trivial, ihD c.2 (by omega)⟩, ihC cs (by omega)⟩
    · intro a h
      cases a <;> simp only [Decl.beqOptF] <;> simp only [Decl.szOpt] at h
      case some d => exact ihD d (by omega)

instance : DecidableEq Ty := fun a b =>
  if h : Ty.beqF (Ty.tsize a + 1) a b = true then
    .isTrue ((beqF_sound (Ty.tsize a + 1)).1 a b h)
  else
    .isFalse fun he => by
      subst he
      exact absurd ((beqF_refl (Ty.tsize a + 1)).1 a (by omega)) h

instance : DecidableEq Decl := fun a b =>
  if h : Decl.beqF (Decl.dsize a + 1) a b = true then
    .isTrue ((beqF_sound (Decl.dsize a + 1)).2.1 a b h)
  else
    .isFalse fun he => by
      subst he
      exact absurd ((beqF_refl (Decl.dsize a + 1)).2.1 a (by omega)) h

/-- `Defn` from `spec/mod.rs`: a top-level binding. -/
inductive Defn where
  | typespec (name : String) (ty : Ty)
  | typesyn (name : String) (ty : Ty)
  | const (name : String) (v : Int)
  deriving DecidableEq

/-! ## Sorted association maps (model of `BTreeMap`)

Rust's `BTreeMap<String, V>` iterates entries in strictly increasing key
order; `insert` replaces the value of an existing key.  We model it as an
association list kept strictly sorted by key. -/

/-- Lexicographic comparison of char lists by code point; on UTF-8
strings this is exactly Rust's `BTreeMap<String, _>` byte order. -/
def charsLt : List Char → List Char → Bool
  | [], [] => false
  | [], _ :: _ => true
  | _ :: _, [] => false
  | a :: as, b :: bs =>
    if a.toNat < b.toNat then true
    else if b.toNat < a.toNat then false
    else charsLt as bs

/-- Key order of the `BTreeMap<String, _>` model. -/
def strLt (a b : String) : Bool := charsLt a.data b.data

/-- Insert into a sorted association list, replacing an equal key. -/
def binsert {α : Type} (k : String) (v : α) : List (String × α) → List (String × α)
  | [] => [(k, v)]
  | (k', v') :: rest =>
    if strLt k k' then (k, v) :: (k', v') :: rest
    else if k = k' then (k, v) :: rest
    else (k', v') :: binsert k v rest

/-- Key lookup in an association list (first match). -/
def alookup {α : Type} (k : String) : List (String × α) → Option α
  | [] => none
  | (k', v) :: rest => if k = k' then some v else alookup k rest

/-- `Symtab` from `spec/mod.rs`: three `BTreeMap`s. -/
structure Symtab where
  consts : List (String × (Int × Option String))
  typespecs : List (String × Ty)
  typesyns : List (String × Ty)
  deriving DecidableEq

namespace Symtab

/-- `Symtab::defconst` -/
def defconst (st : Symtab) (name : String) (v : Int) (scope : Option String) : Symtab :=
  { st with consts := binsert name (v, scope) st.consts }

/-- `Symtab::deftype` -/
def deftype (st : Symtab) (name : String) (ty : Ty) : Symtab :=
  { st with typespecs := binsert name ty st.typespecs }

/-- `Symtab::deftypesyn` -/
def deftypesyn (st : Symtab) (name : String) (ty : Ty) : Symtab :=
  { st with typesyns := binsert name ty st.typesyns }

/-- `Symtab::getconst` -/
def getconst (st : Symtab) (name : String) : Option (Int × Option String) :=
  alookup name st.consts

/-- `Symtab::value`: `Const(c)` is itself; `Ident` resolves via `getconst`. -/
def value (st : Symtab) : Value → Option Int
  | .const c => some c
  | .ident id => (st.getconst id).map Prod.fst

/-- `Symtab::typespec`: typespecs first, then typesyns. -/
def typespec (st : Symtab) (name : String) : Option Ty :=
  match alookup name st.typespecs with
  | some ty => some ty
  | none => alookup name st.typesyns

/-- Body of the loop in `Symtab::update_enum_consts`: walk the members with
the running `prev` value (initially `-1`); a member without an explicit
value gets `prev + 1`; an explicit value is resolved against the symbol
table built so far, an unresolvable member is skipped (`continue`),
leaving `prev` unchanged; each registered member carries the enum's name
as its scope. -/
def enumConstsLoop (scope : String) : Symtab → Int → List EnumDefn → Symtab
  | st, _, [] => st
  | st, prev, d :: rest =>
    match d.val with
    | none =>
      let v := prev + 1
      enumConstsLoop scope (st.defconst d.name v (some scope)) v rest
    | some val =>
      match st.value val with
      | none => enumConstsLoop scope st prev rest
      | some c => enumConstsLoop scope (st.defconst d.name c (some scope)) c rest

/-- `Symtab::update_enum_consts`: only enum types register members. -/
def updateEnumConsts (st : Symtab) (scope : String) (ty : Ty) : Symtab :=
  match ty with
  | .enum edefs => enumConstsLoop scope st (-1) edefs
  | _ => st

/-- One step of `Symtab::update_consts`. -/
def updateConstsStep (st : Symtab) : Defn → Symtab
  | .typespec name ty => (st.deftype name ty).updateEnumConsts name ty
  | .const name v => st.defconst name v none
  | .typesyn name ty => st.deftypesyn name ty

/-- `Symtab::update_consts` -/
def updateConsts (st : Symtab) (defns : List Defn) : Symtab :=
  defns.foldl updateConstsStep st

/-- `Symtab::new` -/
def new (defns : List Defn) : Symtab :=
  updateConsts ⟨[], [], []⟩ defns

end Symtab

/-! ## Errors -/

/-- Code-generation errors (`src/xdrgen/src/error.rs`), restricted to the
variants the emitters in `spec/mod.rs` can produce.  `voidSelector` models
the `panic!("void switch selector?")` in `Typespec::unpack`; `fuelOut` is
model-only: it marks symbol-table recursion that the Rust code would spin
on forever (cyclic definitions). -/
inductive GenErr where
  | unnamedType (ty : Ty)
  | incompatSelector (selector : Decl) (value : Value)
  | discUnknown (value : Value)
  | unimplementedType (ty : Ty)
  | voidSelector
  | fuelOut
  deriving DecidableEq

/-- `collect::<Result<Vec<_>>>()` over an iterator of fallible items:
evaluate in order, keep the first error. -/
def emapM {A B : Type} (f : A -> Except GenErr B) : List A -> Except GenErr (List B)
  | [] => .ok []
  | a :: as =>
    match f a with
    | .error e => .error e
    | .ok b =>
      match emapM f as with
      | .error e => .error e
      | .ok bs => .ok (b :: bs)

/-- Runtime error type of the `xdr-codec` crate
(`src/xdr-codec/src/error.rs`), payloads of the IO/UTF-8 variants dropped. -/
inductive XErr where
  | invalidCase (case_ : Int)
  | invalidEnum (value : Int)
  | invalidLen (len : Nat)
  | invalidNamedCase (name : String) (value : Int)
  | invalidNamedEnum (name : String) (value : Int)
  | ioError
  | invalidUtf8
  deriving DecidableEq

/-- Rust `v as i32` on an `i64` value: two's-complement truncation. -/
def wrap32 (v : Int) : Int := (v + 2 ^ 31) % 2 ^ 32 - 2 ^ 31

/-! ## Type analyses: `is_prim`, `is_boxed` -/

/-- `Type::is_prim`.  The `Ident` arm chases the symbol table and can cycle
in Rust; fuel bounds that recursion (`none` = the Rust code diverges). -/
def isPrimO : Nat → Symtab → Ty → Option Bool
  | 0, _, _ => none
  | fuel + 1, st, t =>
    match t with
    | .int | .uint | .hyper | .uhyper | .float | .double | .quadruple | .bool =>
      some true
    | .ident id _ =>
      match st.typespec id with
      | none => some false
      | some ty => isPrimO fuel st ty
    | _ => some false

/-- `Type::is_boxed`: primitives are not boxed; arrays, flexes and options
are not boxed; an `Ident` resolves through the symbol table (unresolved
idents are boxed); everything else (compound types, `String`, `Opaque`)
is boxed. -/
def isBoxed : Nat → Symtab → Ty → Option Bool
  | 0, _, _ => none
  | fuel + 1, st, t =>
    match isPrimO (fuel + 1) st t with
    | none => none
    | some true => some false
    | some false =>
      match t with
      | .array _ _ | .flex _ _ | .option _ => some false
      | .ident name _ =>
        match st.typespec name with
        | some ty => isBoxed fuel st ty
        | none => some true
      | _ => some true

/-- What `is_boxed` computes, worded as the amended claim: a compound
type (`struct`/`union`/`enum`), `String` or `Opaque` is boxed; an `Ident`
resolves through the symbol table (unresolved idents are boxed);
primitives, arrays, flexes and options are not boxed.  To be compared
with `isBoxed` from the source. -/
def boxedSpec : Nat → Symtab → Ty → Option Bool
  | 0, _, _ => none
  | fuel + 1, st, t =>
    match t with
    | .enum _ | .struct _ | .union _ _ _ => some true
    | .string | .Opaque => some true
    | .ident id _ =>
      match st.typespec id with
      | some ty => boxedSpec fuel st ty
      | none => some true
    | _ => some false

/-! ## `Type::as_token`: rendered type references -/

/-- The type reference tokens `Type::as_token` can produce. -/
inductive Tok where
  | i32
  | u32
  | i64
  | u64
  | f32
  | f64
  | f128
  | boolTok
  | stringTok
  | bytesTok
  | optionBoxed (inner : Tok)
  | optionPlain (inner : Tok)
  | byteArray (len : Value)
  | arrayOf (inner : Tok) (len : Value)
  | vecOf (inner : Tok)
  | namedTy (name : String)
  deriving DecidableEq

/-- `Type::as_token`.  Compound types cannot be rendered inline
(`UnnamedType` error).  The `Option` branch renders the inner token and
then asks `is_boxed` whether to wrap it in a heap indirection; `bf` is the
fuel for that symbol-table recursion. -/
def asToken (bf : Nat) (st : Symtab) : Ty → Except GenErr Tok
  | .int => .ok .i32
  | .uint => .ok .u32
  | .hyper => .ok .i64
  | .uhyper => .ok .u64
  | .float => .ok .f32
  | .double => .ok .f64
  | .quadruple => .ok .f128
  | .bool => .ok .boolTok
  | .string => .ok .stringTok
  | .Opaque => .ok .bytesTok
  | .option ty => do
    let tok ← asToken bf st ty
    match isBoxed bf st ty with
    | none => .error .fuelOut
    | some true => .ok (.optionBoxed tok)
    | some false => .ok (.optionPlain tok)
  | .array ty sz =>
    match ty with
    | .string | .Opaque => .ok (.byteArray sz)
    | ty => do
      let tok ← asToken bf st ty
      .ok (.arrayOf tok sz)
  | .flex ty _ =>
    match ty with
    | .string => .ok .stringTok
    | .Opaque => .ok .bytesTok
    | ty => do
      let tok ← asToken bf st ty
      .ok (.vecOf tok)
  | .ident name _ => .ok (.namedTy name)
  | .enum ds => .error (.unnamedType (.enum ds))
  | .struct ds => .error (.unnamedType (.struct ds))
  | .union s cs d => .error (.unnamedType (.union s cs d))

/-! ## `Typespec::define`: the union compatibility check and error behaviour -/

/-- The `compatcase` closure inside `Typespec::define` for unions: is a
case value compatible with the selector's type? -/
def compatcase (st : Symtab) (selector : Decl) (caseVal : Value) : Bool :=
  match selector with
  | .void => false
  | .named _ seltype =>
    match caseVal with
    | .const v =>
      if v < 0 then
        match seltype with
        | .int | .hyper => true
        | _ => false
      else
        match seltype with
        | .int | .hyper | .uint | .uhyper => true
        | _ => false
    | .ident id =>
      if seltype = .bool then
        id = "TRUE" || id = "FALSE"
      else
        match seltype with
        | .ident selname _ =>
          match st.getconst id with
          | some (_, some scope) => scope = selname
          | _ => false
        | _ => false

/-- The compatibility rules as the claim words them: a `Bool` selector
accepts only the identifiers `TRUE`/`FALSE`; `Int`/`Hyper` selectors
accept any integer constant; `UInt`/`UHyper` selectors accept only
non-negative constants; an `Ident` selector accepts identifiers whose
constant entry carries the selector type's name as scope.  This is a
spec-side rendering, to be compared with `compatcase` from the source. -/
def compatSpec (st : Symtab) (selector : Decl) (caseVal : Value) : Bool :=
  match selector with
  | .void => false
  | .named _ seltype =>
    match seltype, caseVal with
    | .bool, .ident id => id = "TRUE" || id = "FALSE"
    | .int, .const _ => true
    | .hyper, .const _ => true
    | .uint, .const v => decide (0 ≤ v)
    | .uhyper, .const v => decide (0 ≤ v)
    | .ident selname _, .ident id =>
      match st.getconst id with
      | some (_, some scope) => scope = selname
      | _ => false
    | _, _ => false

/-- `Decl::as_token`, reduced to its error behaviour: `Void` yields no
token (`Ok(None)`); a named declaration renders its type (the
`is_boxed` wrapping there is behind `if false &&` in the source). -/
def declTokenE (bf : Nat) (st : Symtab) : Decl → Except GenErr Unit
  | .void => .ok ()
  | .named _ ty => do
    let _ ← asToken bf st ty
    .ok ()

/-- One union case inside `Typespec::define`: first the compatibility
check (`IncompatSelector` on failure), then the payload type is rendered. -/
def defineCaseE (bf : Nat) (st : Symtab) (selector : Decl) (c : UnionCase) :
    Except GenErr Unit :=
  if !(compatcase st selector c.1) then .error (.incompatSelector selector c.1)
  else
    match c.2 with
    | .void => .ok ()
    | .named _ ty => do
      let _ ← asToken bf st ty
      .ok ()

/-- `Typespec::define`, reduced to its error behaviour.  Enum definitions
never fail (unresolvable members are dropped with a diagnostic); struct
fields render their types in order; union cases run the compatibility
check then render payloads, and a named default payload is rendered and
queried for boxing; top-level `Flex`/`Array` and synonym-like types render
the whole type.  The `derivable` call never fails and is omitted here. -/
def defineE (bf : Nat) (st : Symtab) (ty : Ty) : Except GenErr Unit :=
  match ty with
  | .enum _ => .ok ()
  | .struct decls => do
    let _ ← emapM (declTokenE bf st) decls
    .ok ()
  | .union selector cases defl => do
    let _ ← emapM (defineCaseE bf st selector) cases
    match defl with
    | some (.named _ dty) => do
      let _ ← asToken bf st dty
      match isBoxed bf st dty with
      | none => .error .fuelOut
      | some _ => .ok ()
    | some .void => .ok ()
    | none => .ok ()
  | ty => do
    let _ ← asToken bf st ty
    .ok ()

/-! ## `Type::derivable`: the memoized derivation analyzer -/

/-- The memo table (`HashMap<Type, Derives>`), as an association list;
`insert` shadows by consing in front. -/
abbrev Memo := List (Ty × Derives)

/-- `memo.get(self)` -/
def memoFind (m : Memo) (t : Ty) : Option Derives :=
  (m.find? fun e => decide (e.1 = t)).map Prod.snd

mutual

/-- `Type::derivable`: on a memo hit return the stored set; otherwise
pre-insert the empty set (to break cycles), compute the set per shape,
store and return it.  In Rust the memo alone bounds the recursion; the
model adds fuel, consumed one unit per recursive step, and any result at
exhausted fuel is the model-only `(empty, m)`, which never adds COPY. -/
def derivable : Nat → Symtab → Memo → Ty → Derives × Memo
  | 0, _, m, _ => (Derives.empty, m)
  | fuel + 1, st, m, t =>
    match memoFind m t with
    | some res => (res, m)
    | none =>
      let m1 := (t, Derives.empty) :: m
      let res :=
        match t with
        | .array ty len =>
          let p :=
            match ty with
            | .Opaque | .string => (Derives.fullSet, m1)
            | ty => derivable fuel st m1 ty
          match st.value len with
          | some v => if v ≤ 32 then p else (Derives.empty, p.2)
          | none => (Derives.empty, p.2)
        | .flex ty _ =>
          let p := derivable fuel st m1 ty
          (p.1.minusCopy, p.2)
        | .enum _ => (Derives.fullSet, m1)
        | .option ty =>
          let p := derivable fuel st m1 ty
          (p.1.minusCopy, p.2)
        | .struct fields => declFold fuel st m1 fields Derives.all
        | .union _ cases defl =>
          let p := caseFold fuel st m1 cases Derives.all
          let q :=
            match defl with
            | none => (Derives.all, p.2)
            | some d => declDerivable fuel st p.2 d
          (p.1.inter q.1, q.2)
        | .ident _ (some ders) => (ders, m1)
        | .ident id none =>
          match st.typespec id with
          | none => (Derives.empty, m1)
          | some ty => derivable fuel st m1 ty
        | .float | .double => (Derives.floatSet, m1)
        | .int | .uint | .hyper | .uhyper | .quadruple | .bool =>
          -- the `ty if ty.is_prim(symtab)` guard: `Ident` was matched above,
          -- so only syntactic primitives reach it
          (Derives.all, m1)
        | .Opaque | .string => (Derives.all.minusCopy, m1)
      (res.1, (t, res.1) :: res.2)

/-- `Decl::derivable`: `Void` supports everything. -/
def declDerivable : Nat → Symtab → Memo → Decl → Derives × Memo
  | 0, _, m, _ => (Derives.empty, m)
  | fuel + 1, st, m, d =>
    match d with
    | .void => (Derives.all, m)
    | .named _ ty => derivable fuel st m ty

/-- The struct fold: `fields.iter().fold(all, |a, f| a & f.derivable(..))`,
threading the memo. -/
def declFold : Nat → Symtab → Memo → List Decl → Derives → Derives × Memo
  | 0, _, m, _, _ => (Derives.empty, m)
  | _ + 1, _, m, [], acc => (acc, m)
  | fuel + 1, st, m, d :: ds, acc =>
    let p := declDerivable fuel st m d
    declFold fuel st p.2 ds (acc.inter p.1)

/-- The union-case fold over `cases.iter().map(|c| &c.1)`. -/
def caseFold : Nat → Symtab → Memo → List UnionCase → Derives → Derives × Memo
  | 0, _, m, _, _ => (Derives.empty, m)
  | _ + 1, _, m, [], acc => (acc, m)
  | fuel + 1, st, m, c :: cs, acc =>
    let p := declDerivable fuel st m c.2
    caseFold fuel st p.2 cs (acc.inter p.1)

end

/-- `ty.derivable(symtab, None)`: a fresh memo. -/
def derives (fuel : Nat) (st : Symtab) (t : Ty) : Derives :=
  (derivable fuel st [] t).1

/-! ## Containment predicates for the COPY-derivation analysis -/

mutual

/-- Containment of a COPY-forbidding construct as the claim words it: a
`Flex`, `String`, `Opaque`, `Option`, or a fixed array whose
symbol-table-resolved length exceeds 32, anywhere inside the type, with
identifier references resolved through the symbol table.  Spec-side
rendering, to be compared with the source's `derivable`.  Fuel bounds the
recursion; exhausted fuel finds nothing. -/
def containsC6 : Nat → Symtab → Ty → Bool
  | 0, _, _ => false
  | cf + 1, st, t =>
    match t with
    | .string => true
    | .Opaque => true
    | .flex _ _ => true
    | .option _ => true
    | .array ty len =>
      (match st.value len with
       | some v => decide (32 < v)
       | none => false) || containsC6 cf st ty
    | .struct fields => declsC6 cf st fields
    | .union sel cases defl =>
      declC6 cf st sel || casesC6 cf st cases || declOptC6 cf st defl
    | .ident id _ =>
      (match st.typespec id with
       | some ty => containsC6 cf st ty
       | none => false)
    | _ => false

/-- `containsC6` through a declaration. -/
def declC6 : Nat → Symtab → Decl → Bool
  | 0, _, _ => false
  | _ + 1, _, .void => false
  | cf + 1, st, .named _ ty => containsC6 cf st ty

/-- `containsC6` through struct fields. -/
def declsC6 : Nat → Symtab → List Decl → Bool
  | 0, _, _ => false
  | _ + 1, _, [] => false
  | cf + 1, st, d :: ds => declC6 cf st d || declsC6 cf st ds

/-- `containsC6` through union cases. -/
def casesC6 : Nat → Symtab → List UnionCase → Bool
  | 0, _, _ => false
  | _ + 1, _, [] => false
  | cf + 1, st, c :: cs => declC6 cf st c.2 || casesC6 cf st cs

/-- `containsC6` through an optional default declaration. -/
def declOptC6 : Nat → Symtab → Option Decl → Bool
  | 0, _, _ => false
  | _ + 1, _, none => false
  | cf + 1, st, some d => declC6 cf st d

end

mutual

/-- Containment of a COPY-forbidding construct restricted to the
positions `derivable` actually walks: the union selector is not visited;
an `Ident` carrying a preset derive set is external and not inspected; an
unresolvable identifier or array length contributes nothing; and an array
over `Opaque`/`String` elements is a byte array (`[u8; n]`), its element
exempt.  `Flex`, `String`, `Opaque` and `Option` at a visited position,
and a visited fixed array of resolved length above 32, forbid COPY. -/
def containsBad : Nat → Symtab → Ty → Bool
  | 0, _, _ => false
  | cf + 1, st, t =>
    match t with
    | .string => true
    | .Opaque => true
    | .flex _ _ => true
    | .option _ => true
    | .array ty len =>
      (match st.value len with
       | some v =>
         if v ≤ 32 then
           match ty with
           | .string | .Opaque => false
           | ty => containsBad cf st ty
         else true
       | none => false)
    | .struct fields => declsBad cf st fields
    | .union _ cases defl => casesBad cf st cases || declOptBad cf st defl
    | .ident _ (some _) => false
    | .ident id none =>
      (match st.typespec id with
       | some ty => containsBad cf st ty
       | none => false)
    | _ => false

/-- `containsBad` through a declaration. -/
def declBadD : Nat → Symtab → Decl → Bool
  | 0, _, _ => false
  | _ + 1, _, .void => false
  | cf + 1, st, .named _ ty => containsBad cf st ty

/-- `containsBad` through struct fields. -/
def declsBad : Nat → Symtab → List Decl → Bool
  | 0, _, _ => false
  | _ + 1, _, [] => false
  | cf + 1, st, d :: ds => declBadD cf st d || declsBad cf st ds

/-- `containsBad` through union cases. -/
def casesBad : Nat → Symtab → List UnionCase → Bool
  | 0, _, _ => false
  | _ + 1, _, [] => false
  | cf + 1, st, c :: cs => declBadD cf st c.2 || casesBad cf st cs

/-- `containsBad` through an optional default declaration. -/
def declOptBad : Nat → Symtab → Option Decl → Bool
  | 0, _, _ => false
  | _ + 1, _, none => false
  | cf + 1, st, some d => declBadD cf st d

end

/-- At every fuel level, no COPY-forbidding construct is found. -/
def badAll (st : Symtab) (t : Ty) : Prop :=
  ∀ cf, containsBad cf st t = false

/-- `badAll` through a declaration. -/
def declAllOk (st : Symtab) (d : Decl) : Prop :=
  ∀ cf, declBadD cf st d = false

/-- Every memo entry whose stored set has COPY is free of COPY-forbidding
constructs. -/
def memoSound (st : Symtab) (m : Memo) : Prop :=
  ∀ p ∈ m, p.2.copy = true → badAll st p.1

/-! ## `Typespec::pack` / `Typespec::unpack`: the emitters and the runtime
semantics of the emitted match expressions -/

/-- What the emitted serializer writes, one call at a time: a
`(x as i32).pack(out)` of a discriminant, or the payload of a nested type
packed through the runtime. -/
inductive WireOp where
  | i32 (v : Int)
  | payload (ty : Ty)
  deriving DecidableEq

/-- A value of the generated union enum, identified by which variant was
built: the `i`-th listed case, or the default variant. -/
inductive UnionVal where
  | caseAt (i : Nat)
  | dflt
  deriving DecidableEq

/-- Runtime semantics of the match emitted by `Typespec::pack` for a union:
a listed case packs its discriminant (`as_token`, resolved through the
symbol table, cast `as i32`) and then its payload if any; the default
variant's arm returns `Err(invalidcase(-1))`.  `none` means the generated
program has no such arm or does not compile (a discriminant naming an
undefined constant). -/
def runUnionPack (st : Symtab) (cases : List UnionCase) (defl : Option Decl) :
    UnionVal → Option (Except XErr (List WireOp))
  | .caseAt i =>
    match cases[i]? with
    | none => none
    | some c =>
      match st.value c.1 with
      | none => none
      | some v =>
        some (.ok (.i32 (wrap32 v) ::
          (match c.2 with
           | .void => []
           | .named _ ty => [.payload ty])))
  | .dflt =>
    match defl with
    | none => none
    | some _ => some (.error (.invalidCase (-1)))

/-- The bodies `Typespec::pack` can emit. -/
inductive PackBody where
  | enumBody
  | structBody (fields : List (String × Ty))
  | unionBody (cases : List UnionCase) (defl : Option Decl)
  | wrapBody (ty : Ty)
  | directBody (ty : Ty)
  deriving DecidableEq

/-- `Typespec::pack`: which pack implementation, if any, is emitted.
`Ident` typespecs and primitive typespecs inherit the runtime blanket
implementation (`Ok(None)`).  In the union arm, `Type::packer` is total,
so no case is ever dropped by the `filter_map`. -/
def tsPack (pf : Nat) (st : Symtab) (ty : Ty) : Except GenErr (Option PackBody) :=
  match ty with
  | .enum _ => .ok (some .enumBody)
  | .struct decls =>
    .ok (some (.structBody (decls.filterMap fun d =>
      match d with
      | .void => none
      | .named n t => some (n, t))))
  | .union _ cases defl => .ok (some (.unionBody cases defl))
  | .flex _ _ | .array _ _ => .ok (some (.wrapBody ty))
  | .ident _ _ => .ok none
  | t =>
    match isPrimO pf st t with
    | none => .error .fuelOut
    | some true => .ok none
    | some false => .ok (some (.directBody t))

/-- The match arms of the emitted enum deserializer: each member with a
symbol-table entry contributes an arm comparing the read value against the
member's value `as i32`; members without an entry are logged and skipped. -/
def enumUnpackArms (st : Symtab) (defs : List EnumDefn) : List (String × Int) :=
  defs.filterMap fun d => (st.getconst d.name).map fun c => (d.name, wrap32 c.1)

/-- Runtime semantics of the emitted enum unpack: read an `i32` `w`, yield
the first member whose value matches, otherwise
`Err(invalid_named_enum(type_name, w))`. -/
def runEnumUnpack (tyname : String) (arms : List (String × Int)) (w : Int) :
    Except XErr String :=
  match arms.find? fun a => decide (a.2 = w) with
  | some a => .ok a.1
  | none => .error (.invalidNamedEnum tyname w)

/-- The union arms built by `Typespec::unpack`: each case's discriminant is
resolved through the symbol table and cast `as i32`; an unresolvable case
aborts generation with the discriminant-value-unknown error. -/
def unionUnpackArms (st : Symtab) : List UnionCase →
    Except GenErr (List (Value × Int × Decl))
  | [] => .ok []
  | c :: cs =>
    match st.value c.1 with
    | none => .error (.discUnknown c.1)
    | some v =>
      match unionUnpackArms st cs with
      | .error e => .error e
      | .ok as => .ok ((c.1, wrap32 v, c.2) :: as)

/-- Which branch of the generated union enum an unpack produced. -/
inductive UnionBranch where
  | caseArm (label : Value) (payload : Decl)
  | defaultArm (payload : Decl)
  deriving DecidableEq

/-- Runtime semantics of the emitted union unpack: read an `i32`
discriminant `w`; the first case arm whose resolved value matches wins;
otherwise the default variant if present; otherwise
`Err(invalid_named_case(type_name, w))`. -/
def runUnionUnpack (tyname : String) (arms : List (Value × Int × Decl))
    (defl : Option Decl) (w : Int) : Except XErr UnionBranch :=
  match arms.find? fun a => decide (a.2.1 = w) with
  | some a => .ok (.caseArm a.1 a.2.2)
  | none =>
    match defl with
    | some d => .ok (.defaultArm d)
    | none => .error (.invalidNamedCase tyname w)

/-- The bodies `Typespec::unpack` can emit. -/
inductive UnpackBody where
  | enumBody (name : String) (arms : List (String × Int))
  | structBody (fields : List (String × Ty))
  | unionBody (name : String) (arms : List (Value × Int × Decl)) (defl : Option Decl)
  | optionBody (ty : Ty)
  | wrapBody (name : String) (ty : Ty)
  deriving DecidableEq

/-- `Typespec::unpack`: which unpack implementation, if any, is emitted.
Union cases must all resolve (else `DiscriminantValueUnknown`); a `Void`
selector panics in the source; `Ident` and primitive typespecs inherit
(`Ok(None)`); remaining shapes are `UnimplementedType`. -/
def tsUnpack (pf : Nat) (st : Symtab) (name : String) (ty : Ty) :
    Except GenErr (Option UnpackBody) :=
  match ty with
  | .enum defs => .ok (some (.enumBody name (enumUnpackArms st defs)))
  | .struct decls =>
    .ok (some (.structBody (decls.filterMap fun d =>
      match d with
      | .void => none
      | .named n t => some (n, t))))
  | .union sel cases defl => do
    let arms ← unionUnpackArms st cases
    match sel with
    | .void => .error .voidSelector
    | .named _ _ => .ok (some (.unionBody name arms defl))
  | .option inner => .ok (some (.optionBody (.option inner)))
  | .flex _ _ | .array _ _ => .ok (some (.wrapBody name ty))
  | .ident _ _ => .ok none
  | t =>
    match isPrimO pf st t with
    | none => .error .fuelOut
    | some true => .ok none
    | some false => .error (.unimplementedType t)

/-! ## The `generate` driver (`src/xdrgen/src/lib.rs`) -/

/-- One emitted top-level item, tagged by section. -/
inductive OutItem where
  | constItem (name : String) (v : Int)
  | typeDef (name : String)
  | typeSyn (name : String)
  | packItem (name : String)
  | unpackItem (name : String)
  deriving DecidableEq

/-- The constants section: only constants without an enum scope are
emitted as standalone `pub const` bindings. -/
def constSection (st : Symtab) : List OutItem :=
  st.consts.filterMap fun e =>
    match e.2.2 with
    | none => some (.constItem e.1 e.2.1)
    | some _ => none

/-- The type-definition section: each typespec's `define`, in the symbol
table's name-sorted order. -/
def typeDefSection (bf : Nat) (st : Symtab) : Except GenErr (List OutItem) :=
  emapM (fun e => do
    let _ ← defineE bf st e.2
    .ok (OutItem.typeDef e.1)) st.typespecs

/-- The type-synonym section (`Typesyn::define` renders the type). -/
def typeSynSection (bf : Nat) (st : Symtab) : Except GenErr (List OutItem) :=
  emapM (fun e => do
    let _ ← asToken bf st e.2
    .ok (OutItem.typeSyn e.1)) st.typesyns

/-- The pack section: typespecs whose `pack` emits an implementation. -/
def packSection (pf : Nat) (st : Symtab) : Except GenErr (List OutItem) := do
  let items ← emapM (fun e => do
    let b ← tsPack pf st e.2
    .ok (b.map fun _ => OutItem.packItem e.1)) st.typespecs
  .ok items.reduceOption

/-- The unpack section: typespecs whose `unpack` emits an implementation. -/
def unpackSection (pf : Nat) (st : Symtab) : Except GenErr (List OutItem) := do
  let items ← emapM (fun e => do
    let b ← tsUnpack pf st e.1 e.2
    .ok (b.map fun _ => OutItem.unpackItem e.1)) st.typespecs
  .ok items.reduceOption

/-- `generate`: build the symbol table, then emit the five sections in
order — constants, type definitions, type synonyms, pack implementations,
unpack implementations — propagating the first error. -/
def generateItems (fuel : Nat) (defns : List Defn) : Except GenErr (List OutItem) :=
  let st := Symtab.new defns
  do
    let td ← typeDefSection fuel st
    let ts ← typeSynSection fuel st
    let ps ← packSection fuel st
    let us ← unpackSection fuel st
    .ok (constSection st ++ td ++ ts ++ ps ++ us)

/-! ## Specification helpers for `update_enum_consts` (claim C1)

`enumTrace` instruments `Symtab.enumConstsLoop` with the list of
`(member, value)` assignments it performs, in order; `enumStates` records
the `(symtab, prev)` state just before each member is processed;
`enumAllResolve` holds when no member is skipped (every explicit value
resolves at its point in the walk). -/

def enumTrace (scope : String) : Symtab → Int → List EnumDefn → List (String × Int)
  | _, _, [] => []
  | st, prev, d :: rest =>
    match d.val with
    | none =>
      (d.name, prev + 1) ::
        enumTrace scope (st.defconst d.name (prev + 1) (some scope)) (prev + 1) rest
    | some val =>
      match st.value val with
      | none => enumTrace scope st prev rest
      | some c =>
        (d.name, c) :: enumTrace scope (st.defconst d.name c (some scope)) c rest

def enumStates (scope : String) : Symtab → Int → List EnumDefn → List (Symtab × Int)
  | _, _, [] => []
  | st, prev, d :: rest =>
    (st, prev) ::
      (match d.val with
       | none => enumStates scope (st.defconst d.name (prev + 1) (some scope)) (prev + 1) rest
       | some val =>
         match st.value val with
         | none => enumStates scope st prev rest
         | some c => enumStates scope (st.defconst d.name c (some scope)) c rest)

def enumAllResolve (scope : String) : Symtab → Int → List EnumDefn → Bool
  | _, _, [] => true
  | st, prev, d :: rest =>
    match d.val with
    | none => enumAllResolve scope (st.defconst d.name (prev + 1) (some scope)) (prev + 1) rest
    | some val =>
      match st.value val with
      | none => false
      | some c => enumAllResolve scope (st.defconst d.name c (some scope)) c rest

/-- Correspondence of `enumConstsLoop` with its instrumented trace, plus
the per-member characterisation of the assigned values. -/
theorem enumLoop_spec (scope : String) :
    ∀ (defs : List EnumDefn) (st : Symtab) (prev : Int),
    enumAllResolve scope st prev defs = true →
    (enumTrace scope st prev defs).length = defs.length ∧
    Symtab.enumConstsLoop scope st prev defs =
      (enumTrace scope st prev defs).foldl
        (fun s e => s.defconst e.1 e.2 (some scope)) st ∧
    (∀ i d, defs[i]? = some d →
      ∃ sp, (enumStates scope st prev defs)[i]? = some sp ∧
        (i = 0 → sp = (st, prev)) ∧
        (∀ j, i = j + 1 →
          ∃ e, (enumTrace scope st prev defs)[j]? = some e ∧ sp.2 = e.2) ∧
        (d.val = none →
          (enumTrace scope st prev defs)[i]? = some (d.name, sp.2 + 1)) ∧
        (∀ v, d.val = some v → ∃ c, sp.1.value v = some c ∧
          (enumTrace scope st prev defs)[i]? = some (d.name, c)))
  | [], st, prev, _ => by
    refine ⟨rfl, rfl, ?_⟩
    intro i d hd
    simp at hd
  | ⟨dname, none⟩ :: rest, st, prev, hres => by
    have hres' : enumAllResolve scope
        (st.defconst dname (prev + 1) (some scope)) (prev + 1) rest = true := hres
    obtain ⟨ihlen, ihloop, ihspec⟩ := enumLoop_spec scope rest
      (st.defconst dname (prev + 1) (some scope)) (prev + 1) hres'
    refine ⟨?_, ?_, ?_⟩
    · simpa [enumTrace] using ihlen
    · simpa [enumTrace, Symtab.enumConstsLoop] using ihloop
    · intro i d hd
      rcases i with _ | i'
      · simp only [List.getElem?_cons_zero, Option.some.injEq] at hd
        subst hd
        exact ⟨(st, prev), by simp [enumStates], fun _ => rfl,
          fun j hj => absurd hj (by omega),
          fun _ => by simp [enumTrace],
          fun v hv => by simp at hv⟩
      · simp only [List.getElem?_cons_succ] at hd
        obtain ⟨sp, hsp, hsp0, hspPrev, hspNone, hspSome⟩ := ihspec i' d hd
        refine ⟨sp, by simpa [enumStates] using hsp, fun h => absurd h (by omega),
          ?_, ?_, ?_⟩
        · intro j hj
          obtain rfl : i' = j := by omega
          rcases i' with _ | j'
          · exact ⟨(dname, prev + 1), by simp [enumTrace], by rw [hsp0 rfl]⟩
          · obtain ⟨e, he, hee⟩ := hspPrev j' rfl
            exact ⟨e, by simpa [enumTrace] using he, hee⟩
        · intro hnone
          simpa [enumTrace] using hspNone hnone
        · intro v hv
          obtain ⟨c, hc, htr⟩ := hspSome v hv
          exact ⟨c, hc, by simpa [enumTrace] using htr⟩
  | ⟨dname, some val⟩ :: rest, st, prev, hres => by
    rcases hv : st.value val with _ | c
    · rw [enumAllResolve] at hres
      simp only [hv] at hres
      exact absurd hres (by decide)
    · have hres' : enumAllResolve scope
          (st.defconst dname c (some scope)) c rest = true := by
        rw [enumAllResolve] at hres
        simpa only [hv] using hres
      obtain ⟨ihlen, ihloop, ihspec⟩ := enumLoop_spec scope rest
        (st.defconst dname c (some scope)) c hres'
      refine ⟨?_, ?_, ?_⟩
      · simpa [enumTrace, hv] using ihlen
      · simpa [enumTrace, Symtab.enumConstsLoop, hv] using ihloop
      · intro i d hd
        rcases i with _ | i'
        · simp only [List.getElem?_cons_zero, Option.some.injEq] at hd
          subst hd
          refine ⟨(st, prev), by simp [enumStates, hv], fun _ => rfl,
            fun j hj => absurd hj (by omega),
            fun hnone => by simp at hnone, ?_⟩
          intro v hveq
          obtain rfl : val = v := by simpa using hveq
          exact ⟨c, hv, by simp [enumTrace, hv]⟩
        · simp only [List.getElem?_cons_succ] at hd
          obtain ⟨sp, hsp, hsp0, hspPrev, hspNone, hspSome⟩ := ihspec i' d hd
          refine ⟨sp, by simpa [enumStates, hv] using hsp,
            fun h => absurd h (by omega), ?_, ?_, ?_⟩
          · intro j hj
            obtain rfl : i' = j := by omega
            rcases i' with _ | j'
            · exact ⟨(dname, c), by simp [enumTrace, hv], by rw [hsp0 rfl]⟩
            · obtain ⟨e, he, hee⟩ := hspPrev j' rfl
              exact ⟨e, by simpa [enumTrace, hv] using he, hee⟩
          · intro hnone
            simpa [enumTrace, hv] using hspNone hnone
          · intro v hveq
            obtain ⟨c', hc', htr⟩ := hspSome v hveq
            exact ⟨c', hc', by simpa [enumTrace, hv] using htr⟩

/-- C1: For every enum type registered in the symbol table, a member that
omits an explicit Value is assigned the preceding member's resolved value
+ 1 — the first member (processed with implicit `prev = -1`) is assigned
0 — and a member with an explicit Value is assigned that Value resolved
through the symbol table (as built up to that member).  Stated over the
assignment trace of `Symtab.updateEnumConsts`, under the hypothesis that
every member resolves (no member is skipped). -/
theorem c1_enum_member_values (scope : String) (st : Symtab) (defs : List EnumDefn)
    (hres : enumAllResolve scope st (-1) defs = true) :
    Symtab.updateEnumConsts st scope (.enum defs) =
      (enumTrace scope st (-1) defs).foldl
        (fun s e => s.defconst e.1 e.2 (some scope)) st ∧
    (enumTrace scope st (-1) defs).length = defs.length ∧
    (∀ (d : EnumDefn) (rest : List EnumDefn), defs = d :: rest → d.val = none →
      (enumTrace scope st (-1) defs)[0]? = some (d.name, 0)) ∧
    (∀ (i : Nat) (d : EnumDefn) (e : String × Int),
      defs[i + 1]? = some d → d.val = none →
      (enumTrace scope st (-1) defs)[i]? = some e →
      (enumTrace scope st (-1) defs)[i + 1]? = some (d.name, e.2 + 1)) ∧
    (∀ (i : Nat) (d : EnumDefn) (v : Value), defs[i]? = some d → d.val = some v →
      ∃ (sp : Symtab × Int) (c : Int),
        (enumStates scope st (-1) defs)[i]? = some sp ∧
        sp.1.value v = some c ∧
        (enumTrace scope st (-1) defs)[i]? = some (d.name, c)) := by
  obtain ⟨hlen, hloop, hspec⟩ := enumLoop_spec scope defs st (-1) hres
  refine ⟨hloop, hlen, ?_, ?_, ?_⟩
  · intro d rest hdefs hnone
    subst hdefs
    obtain ⟨sp, _, hsp0, _, hspNone, _⟩ := hspec 0 d (by simp)
    have := hspNone hnone
    rw [hsp0 rfl] at this
    simpa using this
  · intro i d e hd hnone htr
    obtain ⟨sp, _, _, hspPrev, hspNone, _⟩ := hspec (i + 1) d hd
    obtain ⟨e', he', hee'⟩ := hspPrev i rfl
    rw [htr] at he'
    obtain rfl : e' = e := by simpa using he'.symm
    rw [← hee']
    exact hspNone hnone
  · intro i d v hd hv
    obtain ⟨sp, hsp, _, _, _, hspSome⟩ := hspec i d hd
    obtain ⟨c, hc, htr⟩ := hspSome v hv
    exact ⟨sp, c, hsp, hc, htr⟩

/-- Witness for C1 on the concrete enum
`enum Color { RED, GREEN = 5, BLUE }` starting from an empty symbol table:
all members resolve, and the theorem applies. -/
theorem c1_enum_member_values_witness :
    enumAllResolve "Color" ⟨[], [], []⟩ (-1)
      [⟨"RED", none⟩, ⟨"GREEN", some (.const 5)⟩, ⟨"BLUE", none⟩] = true ∧
    (Symtab.updateEnumConsts ⟨[], [], []⟩ "Color"
        (.enum [⟨"RED", none⟩, ⟨"GREEN", some (.const 5)⟩, ⟨"BLUE", none⟩]) =
      (enumTrace "Color" ⟨[], [], []⟩ (-1)
          [⟨"RED", none⟩, ⟨"GREEN", some (.const 5)⟩, ⟨"BLUE", none⟩]).foldl
        (fun s e => s.defconst e.1 e.2 (some "Color")) ⟨[], [], []⟩ ∧
      (enumTrace "Color" ⟨[], [], []⟩ (-1)
          [⟨"RED", none⟩, ⟨"GREEN", some (.const 5)⟩, ⟨"BLUE", none⟩]).length =
        ([⟨"RED", none⟩, ⟨"GREEN", some (.const 5)⟩, ⟨"BLUE", none⟩] :
          List EnumDefn).length ∧
      (∀ (d : EnumDefn) (rest : List EnumDefn),
        [⟨"RED", none⟩, ⟨"GREEN", some (.const 5)⟩, ⟨"BLUE", none⟩] = d :: rest →
        d.val = none →
        (enumTrace "Color" ⟨[], [], []⟩ (-1)
            [⟨"RED", none⟩, ⟨"GREEN", some (.const 5)⟩, ⟨"BLUE", none⟩])[0]? =
          some (d.name, 0)) ∧
      (∀ (i : Nat) (d : EnumDefn) (e : String × Int),
        ([⟨"RED", none⟩, ⟨"GREEN", some (.const 5)⟩, ⟨"BLUE", none⟩] :
          List EnumDefn)[i + 1]? = some d →
        d.val = none →
        (enumTrace "Color" ⟨[], [], []⟩ (-1)
            [⟨"RED", none⟩, ⟨"GREEN", some (.const 5)⟩, ⟨"BLUE", none⟩])[i]? = some e →
        (enumTrace "Color" ⟨[], [], []⟩ (-1)
            [⟨"RED", none⟩, ⟨"GREEN", some (.const 5)⟩, ⟨"BLUE", none⟩])[i + 1]? =
          some (d.name, e.2 + 1)) ∧
      (∀ (i : Nat) (d : EnumDefn) (v : Value),
        ([⟨"RED", none⟩, ⟨"GREEN", some (.const 5)⟩, ⟨"BLUE", none⟩] :
          List EnumDefn)[i]? = some d →
        d.val = some v →
        ∃ (sp : Symtab × Int) (c : Int),
          (enumStates "Color" ⟨[], [], []⟩ (-1)
              [⟨"RED", none⟩, ⟨"GREEN", some (.const 5)⟩, ⟨"BLUE", none⟩])[i]? =
            some sp ∧
          sp.1.value v = some c ∧
          (enumTrace "Color" ⟨[], [], []⟩ (-1)
              [⟨"RED", none⟩, ⟨"GREEN", some (.const 5)⟩, ⟨"BLUE", none⟩])[i]? =
            some (d.name, c))) :=
  ⟨rfl, c1_enum_member_values "Color" ⟨[], [], []⟩
    [⟨"RED", none⟩, ⟨"GREEN", some (.const 5)⟩, ⟨"BLUE", none⟩] rfl⟩

/-! ## Claims C5, C2, C3: semantics of the emitted enum/union codecs -/

/-- C5: For every enum typespec `t` with declared member values, the
generated unpack reads a signed 32-bit integer `w`; if `w` equals some
member's resolved value (cast `as i32`), it yields a matching variant, and
if it equals none of them it fails with `InvalidNamedEnum(t, w)`. -/
theorem c5_enum_unpack_semantics (pf : Nat) (st : Symtab) (name : String)
    (defs : List EnumDefn) :
    tsUnpack pf st name (.enum defs) =
      .ok (some (.enumBody name (enumUnpackArms st defs))) ∧
    (∀ w : Int,
      (∃ d ∈ defs, ∃ c : Int × Option String,
        st.getconst d.name = some c ∧ wrap32 c.1 = w) →
      ∃ d ∈ defs, ∃ c : Int × Option String,
        st.getconst d.name = some c ∧ wrap32 c.1 = w ∧
        runEnumUnpack name (enumUnpackArms st defs) w = .ok d.name) ∧
    (∀ w : Int,
      (∀ d ∈ defs, ∀ c : Int × Option String,
        st.getconst d.name = some c → wrap32 c.1 ≠ w) →
      runEnumUnpack name (enumUnpackArms st defs) w =
        .error (.invalidNamedEnum name w)) := by
  refine ⟨rfl, ?_, ?_⟩
  · intro w ⟨d, hd, c, hc, hw⟩
    have hmem : (d.name, wrap32 c.1) ∈ enumUnpackArms st defs := by
      rw [enumUnpackArms]
      exact List.mem_filterMap.mpr ⟨d, hd, by rw [hc]; rfl⟩
    match hfind : (enumUnpackArms st defs).find? fun a => decide (a.2 = w) with
    | none =>
      exact absurd (by simp [hw] : decide
          (((d.name, wrap32 c.1) : String × Int).2 = w) = true)
        (by simpa using List.find?_eq_none.mp hfind _ hmem)
    | some a =>
      have haw : a.2 = w := by simpa using List.find?_some hfind
      have hamem : a ∈ enumUnpackArms st defs := List.mem_of_find?_eq_some hfind
      rw [enumUnpackArms] at hamem
      obtain ⟨d', hd', hfa⟩ := List.mem_filterMap.mp hamem
      rw [Option.map_eq_some'] at hfa
      obtain ⟨c', hc', rfl⟩ := hfa
      refine ⟨d', hd', c', hc', haw, ?_⟩
      rw [runEnumUnpack, hfind]
  · intro w hall
    have hnone : (enumUnpackArms st defs).find? (fun a => decide (a.2 = w)) = none := by
      refine List.find?_eq_none.mpr ?_
      intro a ha
      rw [enumUnpackArms] at ha
      obtain ⟨d, hd, hfa⟩ := List.mem_filterMap.mp ha
      rw [Option.map_eq_some'] at hfa
      obtain ⟨c, hc, rfl⟩ := hfa
      simpa using hall d hd c hc
    rw [runEnumUnpack, hnone]

/-- Witness for C5: unpacking `3` for `enum Color { RED, GREEN, BLUE }`
(values 0, 1, 2) fails with `InvalidNamedEnum("Color", 3)`. -/
theorem c5_enum_unpack_semantics_witness :
    runEnumUnpack "Color"
      (enumUnpackArms
        (Symtab.new [.typespec "Color"
          (.enum [⟨"RED", none⟩, ⟨"GREEN", none⟩, ⟨"BLUE", none⟩])])
        [⟨"RED", none⟩, ⟨"GREEN", none⟩, ⟨"BLUE", none⟩]) 3 =
      .error (.invalidNamedEnum "Color" 3) := by
  refine (c5_enum_unpack_semantics 1
    (Symtab.new [.typespec "Color"
      (.enum [⟨"RED", none⟩, ⟨"GREEN", none⟩, ⟨"BLUE", none⟩])])
    "Color" [⟨"RED", none⟩, ⟨"GREEN", none⟩, ⟨"BLUE", none⟩]).2.2 3 ?_
  intro d hd c hc
  fin_cases hd
  · obtain rfl : c = (0, some "Color") := by
      have : (Symtab.new [.typespec "Color"
          (.enum [⟨"RED", none⟩, ⟨"GREEN", none⟩, ⟨"BLUE", none⟩])]).getconst
          "RED" = some (0, some "Color") := rfl
      rw [this] at hc
      exact (Option.some.inj hc).symm
    decide
  · obtain rfl : c = (1, some "Color") := by
      have : (Symtab.new [.typespec "Color"
          (.enum [⟨"RED", none⟩, ⟨"GREEN", none⟩, ⟨"BLUE", none⟩])]).getconst
          "GREEN" = some (1, some "Color") := rfl
      rw [this] at hc
      exact (Option.some.inj hc).symm
    decide
  · obtain rfl : c = (2, some "Color") := by
      have : (Symtab.new [.typespec "Color"
          (.enum [⟨"RED", none⟩, ⟨"GREEN", none⟩, ⟨"BLUE", none⟩])]).getconst
          "BLUE" = some (2, some "Color") := rfl
      rw [this] at hc
      exact (Option.some.inj hc).symm
    decide

/-- If some union case's discriminant does not resolve, building the
unpack arms fails with the discriminant-value-unknown error (at the first
such case). -/
theorem unionUnpackArms_err (st : Symtab) :
    ∀ cases : List UnionCase, (∃ c ∈ cases, st.value c.1 = none) →
    ∃ v : Value, unionUnpackArms st cases = .error (.discUnknown v) ∧
      ∃ c ∈ cases, c.1 = v ∧ st.value v = none
  | [], h => by simp at h
  | c0 :: cs, h => by
    match hv : st.value c0.1 with
    | none =>
      refine ⟨c0.1, ?_, c0, by simp, rfl, hv⟩
      rw [unionUnpackArms, hv]
    | some v0 =>
      obtain ⟨c, hc, hcn⟩ := h
      rcases List.mem_cons.mp hc with rfl | hc'
      · rw [hv] at hcn; exact absurd hcn (by simp)
      · obtain ⟨v, harms, c', hc'', hv'⟩ := unionUnpackArms_err st cs ⟨c, hc', hcn⟩
        refine ⟨v, ?_, c', List.mem_cons_of_mem _ hc'', hv'⟩
        rw [unionUnpackArms, hv, harms]

/-- If building the unpack arms succeeds, every case resolved and its arm
carries the resolved discriminant cast `as i32`. -/
theorem unionUnpackArms_ok (st : Symtab) :
    ∀ (cases : List UnionCase) (arms : List (Value × Int × Decl)),
    unionUnpackArms st cases = .ok arms →
    arms.length = cases.length ∧
    ∀ (i : Nat) (c : UnionCase), cases[i]? = some c →
      ∃ v : Int, st.value c.1 = some v ∧ arms[i]? = some (c.1, wrap32 v, c.2)
  | [], arms, h => by
    obtain rfl : arms = [] := by
      rw [unionUnpackArms] at h
      exact (Except.ok.inj h).symm
    exact ⟨rfl, by simp⟩
  | c0 :: cs, arms, h => by
    rw [unionUnpackArms] at h
    match hv : st.value c0.1 with
    | none => rw [hv] at h; exact absurd h (by simp)
    | some v0 =>
      rw [hv] at h
      match harms : unionUnpackArms st cs with
      | .error e => rw [harms] at h; exact absurd h (by simp)
      | .ok as =>
        rw [harms] at h
        obtain rfl : arms = (c0.1, wrap32 v0, c0.2) :: as := by
          simpa using h.symm
        obtain ⟨ihlen, ihspec⟩ := unionUnpackArms_ok st cs as harms
        refine ⟨by simpa using ihlen, ?_⟩
        intro i c hc
        rcases i with _ | i'
        · obtain rfl : c0 = c := by simpa using hc
          exact ⟨v0, hv, by simp⟩
        · simp only [List.getElem?_cons_succ] at hc ⊢
          exact ihspec i' c hc

/-- C2: For every union typespec, the generated unpack reads a signed
32-bit discriminant `w`: a case whose resolved value matches wins; with no
match, a present default variant wins; with no match and no default it
fails with `InvalidNamedCase(name, w)`.  If some case Value cannot be
resolved, code generation itself fails with the
discriminant-value-unknown error. -/
theorem c2_union_unpack_semantics (pf : Nat) (st : Symtab) (name : String)
    (sel : Decl) (cases : List UnionCase) (defl : Option Decl) :
    ((∃ c ∈ cases, st.value c.1 = none) →
      ∃ v : Value, tsUnpack pf st name (.union sel cases defl) =
        .error (.discUnknown v) ∧ ∃ c ∈ cases, c.1 = v ∧ st.value v = none) ∧
    (∀ (arms : List (Value × Int × Decl)) (s : String) (sty : Ty),
      unionUnpackArms st cases = .ok arms → sel = .named s sty →
      tsUnpack pf st name (.union sel cases defl) =
        .ok (some (.unionBody name arms defl)) ∧
      (arms.length = cases.length ∧
        ∀ (i : Nat) (c : UnionCase), cases[i]? = some c →
          ∃ v : Int, st.value c.1 = some v ∧ arms[i]? = some (c.1, wrap32 v, c.2)) ∧
      (∀ w : Int,
        ((∃ a ∈ arms, a.2.1 = w) →
          ∃ a ∈ arms, a.2.1 = w ∧
            runUnionUnpack name arms defl w = .ok (.caseArm a.1 a.2.2)) ∧
        ((∀ a ∈ arms, a.2.1 ≠ w) → ∀ d : Decl, defl = some d →
          runUnionUnpack name arms defl w = .ok (.defaultArm d)) ∧
        ((∀ a ∈ arms, a.2.1 ≠ w) → defl = none →
          runUnionUnpack name arms defl w =
            .error (.invalidNamedCase name w)))) := by
  constructor
  · intro h
    obtain ⟨v, harms, hc⟩ := unionUnpackArms_err st cases h
    refine ⟨v, ?_, hc⟩
    rw [tsUnpack, harms]
    rfl
  · intro arms s sty harms hsel
    subst hsel
    refine ⟨by rw [tsUnpack, harms]; rfl, unionUnpackArms_ok st cases arms harms, ?_⟩
    intro w
    refine ⟨?_, ?_, ?_⟩
    · intro ⟨a, ha, haw⟩
      match hfind : arms.find? fun x => decide (x.2.1 = w) with
      | none =>
        exact absurd (show decide (a.2.1 = w) = true by simp [haw])
          (by simpa using List.find?_eq_none.mp hfind a ha)
      | some a' =>
        have ha'w : a'.2.1 = w := by simpa using List.find?_some hfind
        refine ⟨a', List.mem_of_find?_eq_some hfind, ha'w, ?_⟩
        rw [runUnionUnpack.eq_def, hfind]
    · intro hall d hd
      subst hd
      have hnone : arms.find? (fun x => decide (x.2.1 = w)) = none :=
        List.find?_eq_none.mpr fun a ha => by simpa using hall a ha
      rw [runUnionUnpack.eq_def, hnone]
    · intro hall hd
      subst hd
      have hnone : arms.find? (fun x => decide (x.2.1 = w)) = none :=
        List.find?_eq_none.mpr fun a ha => by simpa using hall a ha
      rw [runUnionUnpack.eq_def, hnone]

/-- Witness for C2 on the union
`union Foo switch (int kind) { case 0: void; case 1: int x; }` (no
default): discriminant `5` matches no case and unpacking fails with
`InvalidNamedCase("Foo", 5)`. -/
theorem c2_union_unpack_semantics_witness :
    runUnionUnpack "Foo" [(.const 0, 0, .void), (.const 1, 1, .named "x" .int)]
      none 5 = .error (.invalidNamedCase "Foo" 5) := by
  have h := (c2_union_unpack_semantics 1 ⟨[], [], []⟩ "Foo"
    (.named "kind" .int) [(.const 0, .void), (.const 1, .named "x" .int)]
    none).2 [(.const 0, 0, .void), (.const 1, 1, .named "x" .int)]
    "kind" .int rfl rfl
  exact (h.2.2 5).2.2 (by decide) rfl

/-- C3: For every union typespec with a default variant, the generated
pack's default branch returns `InvalidCase(-1)` and writes nothing, while
every listed case writes its discriminant as a signed 32-bit value
followed by its payload, if any. -/
theorem c3_union_pack_default (pf : Nat) (st : Symtab) (sel : Decl)
    (cases : List UnionCase) (defl : Option Decl) :
    tsPack pf st (.union sel cases defl) = .ok (some (.unionBody cases defl)) ∧
    (∀ d : Decl, defl = some d →
      runUnionPack st cases defl .dflt = some (.error (.invalidCase (-1)))) ∧
    (∀ (i : Nat) (c : UnionCase) (v : Int), cases[i]? = some c →
      st.value c.1 = some v →
      runUnionPack st cases defl (.caseAt i) =
        some (.ok (.i32 (wrap32 v) ::
          (match c.2 with
           | .void => []
           | .named _ ty => [.payload ty])))) := by
  refine ⟨rfl, ?_, ?_⟩
  · intro d hd
    subst hd
    rfl
  · intro i c v hc hv
    simp [runUnionPack, hc, hv]

/-- Witness for C3 on
`union Foo switch (int kind) { case 0: void; default: opaque rest<>; }`:
packing the default variant fails with `InvalidCase(-1)`, and packing case
0 writes the discriminant `0` as an `i32`. -/
theorem c3_union_pack_default_witness :
    runUnionPack ⟨[], [], []⟩ [(.const 0, .void)]
      (some (.named "rest" (.flex .Opaque none))) .dflt =
      some (.error (.invalidCase (-1))) ∧
    runUnionPack ⟨[], [], []⟩ [(.const 0, .void)]
      (some (.named "rest" (.flex .Opaque none))) (.caseAt 0) =
      some (.ok [.i32 0]) := by
  have h := c3_union_pack_default 1 ⟨[], [], []⟩ (.named "kind" .int)
    [(.const 0, .void)] (some (.named "rest" (.flex .Opaque none)))
  exact ⟨h.2.1 _ rfl, h.2.2 0 (.const 0, .void) 0 rfl rfl⟩

/-! ## Order properties of the `BTreeMap` model (claims C9, C10) -/

theorem charsLt_irrefl : ∀ l : List Char, charsLt l l = false
  | [] => rfl
  | a :: as => by
    rw [charsLt]
    simp [charsLt_irrefl as]

theorem charsLt_nil_right : ∀ a : List Char, charsLt a [] = false
  | [] => rfl
  | _ :: _ => rfl

theorem charsLt_trans :
    ∀ a b c : List Char, charsLt a b = true → charsLt b c = true →
      charsLt a c = true
  | [], _ :: _, _ :: _, _, _ => rfl
  | _ :: _, _ :: _, _ :: _, hab, hbc => by
    rename_i a as b bs c cs
    rw [charsLt] at hab hbc ⊢
    have hab' : a.toNat < b.toNat ∨ (a.toNat = b.toNat ∧ charsLt as bs = true) := by
      by_cases h1 : a.toNat < b.toNat
      · exact .inl h1
      · rw [if_neg h1] at hab
        by_cases h2 : b.toNat < a.toNat
        · rw [if_pos h2] at hab; exact absurd hab (by simp)
        · rw [if_neg h2] at hab; exact .inr ⟨by omega, hab⟩
    have hbc' : b.toNat < c.toNat ∨ (b.toNat = c.toNat ∧ charsLt bs cs = true) := by
      by_cases h1 : b.toNat < c.toNat
      · exact .inl h1
      · rw [if_neg h1] at hbc
        by_cases h2 : c.toNat < b.toNat
        · rw [if_pos h2] at hbc; exact absurd hbc (by simp)
        · rw [if_neg h2] at hbc; exact .inr ⟨by omega, hbc⟩
    rcases hab' with h1 | ⟨h1, hab2⟩ <;> rcases hbc' with h2 | ⟨h2, hbc2⟩
    · rw [if_pos (by omega : a.toNat < c.toNat)]
    · rw [if_pos (by omega : a.toNat < c.toNat)]
    · rw [if_pos (by omega : a.toNat < c.toNat)]
    · rw [if_neg (by omega : ¬a.toNat < c.toNat),
        if_neg (by omega : ¬c.toNat < a.toNat)]
      exact charsLt_trans as bs cs hab2 hbc2
  | _, [], _, hab, _ => by
    rw [charsLt_nil_right] at hab
    exact absurd hab (by simp)
  | _ :: _, _ :: _, [], _, hbc => by
    rw [charsLt] at hbc
    simp at hbc

theorem char_eq_of_toNat_eq {a b : Char} (h : a.toNat = b.toNat) : a = b :=
  Char.ext (UInt32.ext h)

theorem charsLt_conn :
    ∀ a b : List Char, charsLt a b = false → charsLt b a = false → a = b
  | [], [], _, _ => rfl
  | [], _ :: _, hab, _ => by rw [charsLt] at hab; exact absurd hab (by simp)
  | _ :: _, [], _, hba => by rw [charsLt] at hba; exact absurd hba (by simp)
  | _ :: _, _ :: _, hab, hba => by
    rename_i a as b bs
    rw [charsLt] at hab hba
    by_cases h1 : a.toNat < b.toNat
    · rw [if_pos h1] at hab; exact absurd hab (by simp)
    · by_cases h2 : b.toNat < a.toNat
      · rw [if_pos h2] at hba; exact absurd hba (by simp)
      · rw [if_neg h1, if_neg h2] at hab
        rw [if_neg h2, if_neg h1] at hba
        have hc : a = b := char_eq_of_toNat_eq (by omega)
        rw [hc, charsLt_conn as bs hab hba]

theorem strLt_irrefl (a : String) : strLt a a = false := charsLt_irrefl a.data

theorem strLt_trans {a b c : String} (hab : strLt a b = true)
    (hbc : strLt b c = true) : strLt a c = true :=
  charsLt_trans a.data b.data c.data hab hbc

theorem strLt_conn {a b : String} (hab : strLt a b = false)
    (hba : strLt b a = false) : a = b := by
  have hd : a.data = b.data := charsLt_conn a.data b.data hab hba
  cases a
  cases b
  exact congrArg String.mk hd

/-- Keys of an association list are strictly increasing in `strLt`. -/
def keysSorted {α : Type} (l : List (String × α)) : Prop :=
  l.Pairwise fun a b => strLt a.1 b.1 = true

theorem mem_binsert {α : Type} (k : String) (v : α) :
    ∀ (l : List (String × α)) (x : String × α),
      x ∈ binsert k v l → x = (k, v) ∨ x ∈ l
  | [], x, hx => by
    rw [binsert] at hx
    exact .inl (by simpa using hx)
  | (k', v') :: rest, x, hx => by
    rw [binsert] at hx
    by_cases h1 : strLt k k' = true
    · simp only [h1, if_true] at hx
      rcases List.mem_cons.mp hx with rfl | hx'
      · exact .inl rfl
      · exact .inr hx'
    · simp only [h1, if_false, Bool.not_eq_true] at hx
      rw [if_neg (by simp [h1])] at hx
      by_cases h2 : k = k'
      · rw [if_pos h2] at hx
        rcases List.mem_cons.mp hx with rfl | hx'
        · exact .inl rfl
        · exact .inr (List.mem_cons_of_mem _ hx')
      · rw [if_neg h2] at hx
        rcases List.mem_cons.mp hx with rfl | hx'
        · exact .inr (List.mem_cons_self _ _)
        · rcases mem_binsert k v rest x hx' with h | h
          · exact .inl h
          · exact .inr (List.mem_cons_of_mem _ h)

theorem binsert_sorted {α : Type} (k : String) (v : α) :
    ∀ l : List (String × α), keysSorted l → keysSorted (binsert k v l)
  | [], _ => by simp [binsert, keysSorted]
  | (k', v') :: rest, hs => by
    obtain ⟨hk', hrest⟩ := List.pairwise_cons.mp hs
    rw [binsert]
    by_cases h1 : strLt k k' = true
    · rw [if_pos h1]
      refine List.pairwise_cons.mpr ⟨?_, hs⟩
      intro x hx
      rcases List.mem_cons.mp hx with rfl | hx'
      · exact h1
      · exact strLt_trans h1 (hk' x hx')
    · rw [if_neg (by simpa using h1)]
      by_cases h2 : k = k'
      · rw [if_pos h2]
        subst h2
        exact List.pairwise_cons.mpr ⟨hk', hrest⟩
      · rw [if_neg h2]
        refine List.pairwise_cons.mpr ⟨?_, binsert_sorted k v rest hrest⟩
        intro x hx
        rcases mem_binsert k v rest x hx with rfl | hx'
        · have hkk : strLt k' k = true := by
            rcases hlt : strLt k' k with _ | _
            · exact absurd (strLt_conn (by simpa using h1) hlt) h2
            · rfl
          exact hkk
        · exact hk' x hx'

theorem alookup_eq_some_of_mem {α : Type} :
    ∀ (l : List (String × α)), keysSorted l →
      ∀ (k : String) (v : α), (k, v) ∈ l → alookup k l = some v
  | [], _, k, v, h => by simp at h
  | (k', v') :: rest, hs, k, v, h => by
    obtain ⟨hk', hrest⟩ := List.pairwise_cons.mp hs
    rcases List.mem_cons.mp h with he | h'
    · simp only [Prod.mk.injEq] at he
      obtain ⟨rfl, rfl⟩ := he
      simp [alookup]
    · rw [alookup]
      by_cases hk : k = k'
      · subst hk
        have := hk' _ h'
        rw [strLt_irrefl] at this
        exact absurd this (by simp)
      · rw [if_neg hk]
        exact alookup_eq_some_of_mem rest hrest k v h'

theorem mem_of_alookup_eq_some {α : Type} :
    ∀ (l : List (String × α)) (k : String) (v : α),
      alookup k l = some v → (k, v) ∈ l
  | [], k, v, h => by simp [alookup] at h
  | (k', v') :: rest, k, v, h => by
    rw [alookup] at h
    by_cases hk : k = k'
    · rw [if_pos hk] at h
      obtain rfl := Option.some.inj h
      subst hk
      exact List.mem_cons_self _ _
    · rw [if_neg hk] at h
      exact List.mem_cons_of_mem _ (mem_of_alookup_eq_some rest k v h)

theorem alookup_eq_none {α : Type} :
    ∀ (l : List (String × α)) (k : String),
      alookup k l = none → ∀ v : α, (k, v) ∉ l
  | [], k, _, v => by simp
  | (k', v') :: rest, k, h, v => by
    rw [alookup] at h
    by_cases hk : k = k'
    · rw [if_pos hk] at h
      exact absurd h (by simp)
    · rw [if_neg hk] at h
      intro hmem
      rcases List.mem_cons.mp hmem with he | h'
      · exact hk (congrArg Prod.fst he)
      · exact alookup_eq_none rest k h v h'

/-- Sortedness of all three maps is preserved by `enumConstsLoop`. -/
theorem enumConstsLoop_sorted (scope : String) :
    ∀ (edefs : List EnumDefn) (st : Symtab) (prev : Int),
    keysSorted st.consts ∧ keysSorted st.typespecs ∧ keysSorted st.typesyns →
    keysSorted (Symtab.enumConstsLoop scope st prev edefs).consts ∧
    keysSorted (Symtab.enumConstsLoop scope st prev edefs).typespecs ∧
    keysSorted (Symtab.enumConstsLoop scope st prev edefs).typesyns
  | [], _, _, h => h
  | ⟨dname, none⟩ :: rest, st, prev, ⟨h1, h2, h3⟩ =>
    enumConstsLoop_sorted scope rest _ _ ⟨binsert_sorted _ _ _ h1, h2, h3⟩
  | ⟨dname, some val⟩ :: rest, st, prev, ⟨h1, h2, h3⟩ => by
    rcases hv : st.value val with _ | c
    · rw [Symtab.enumConstsLoop]
      simp only [hv]
      exact enumConstsLoop_sorted scope rest _ _ ⟨h1, h2, h3⟩
    · rw [Symtab.enumConstsLoop]
      simp only [hv]
      exact enumConstsLoop_sorted scope rest _ _ ⟨binsert_sorted _ _ _ h1, h2, h3⟩

/-- The three maps of a symbol table built by `Symtab.new` are key-sorted. -/
theorem symtab_new_sorted (defns : List Defn) :
    keysSorted (Symtab.new defns).consts ∧
    keysSorted (Symtab.new defns).typespecs ∧
    keysSorted (Symtab.new defns).typesyns := by
  have hstep : ∀ (d : Defn) (st : Symtab),
      keysSorted st.consts ∧ keysSorted st.typespecs ∧ keysSorted st.typesyns →
      keysSorted (Symtab.updateConstsStep st d).consts ∧
      keysSorted (Symtab.updateConstsStep st d).typespecs ∧
      keysSorted (Symtab.updateConstsStep st d).typesyns := by
    intro d st h
    obtain ⟨h1, h2, h3⟩ := h
    cases d with
    | typespec name ty =>
      cases ty
      case enum edefs =>
        exact enumConstsLoop_sorted name edefs _ (-1)
          ⟨h1, binsert_sorted _ _ _ h2, h3⟩
      all_goals exact ⟨h1, binsert_sorted _ _ _ h2, h3⟩
    | const name val => exact ⟨binsert_sorted _ _ _ h1, h2, h3⟩
    | typesyn name ty => exact ⟨h1, h2, binsert_sorted _ _ _ h3⟩
  have hfold : ∀ (ds : List Defn) (st : Symtab),
      keysSorted st.consts ∧ keysSorted st.typespecs ∧ keysSorted st.typesyns →
      keysSorted (Symtab.updateConsts st ds).consts ∧
      keysSorted (Symtab.updateConsts st ds).typespecs ∧
      keysSorted (Symtab.updateConsts st ds).typesyns := by
    intro ds
    induction ds with
    | nil => intro st h; exact h
    | cons d rest ih => intro st h; exact ih _ (hstep d st h)
  exact hfold defns ⟨[], [], []⟩ ⟨List.Pairwise.nil, List.Pairwise.nil,
    List.Pairwise.nil⟩

/-- C10: a constant whose symbol-table entry carries an enum scope (an
enum member promoted to a scoped constant) is never emitted as a
standalone top-level constant; the constants section emits exactly the
constants whose entry has no scope. -/
theorem c10_scoped_constants_suppressed (defns : List Defn) (name : String) :
    ((∃ (v : Int) (sc : String),
        (Symtab.new defns).getconst name = some (v, some sc)) →
      ∀ v' : Int, OutItem.constItem name v' ∉ constSection (Symtab.new defns)) ∧
    (∀ v' : Int, OutItem.constItem name v' ∈ constSection (Symtab.new defns) →
      (Symtab.new defns).getconst name = some (v', none)) := by
  have hsorted := (symtab_new_sorted defns).1
  have hmem_char : ∀ v' : Int,
      OutItem.constItem name v' ∈ constSection (Symtab.new defns) →
      (name, (v', (none : Option String))) ∈ (Symtab.new defns).consts := by
    intro v' hmem
    rw [constSection] at hmem
    obtain ⟨e, he, hfe⟩ := List.mem_filterMap.mp hmem
    obtain ⟨k, v2, sc2⟩ := e
    rcases sc2 with _ | s
    · simp only [Option.some.injEq, OutItem.constItem.injEq] at hfe
      obtain ⟨rfl, rfl⟩ := hfe
      exact he
    · exact absurd hfe (by simp)
  constructor
  · rintro ⟨v, sc, hget⟩ v' hmem
    have hlook : (Symtab.new defns).getconst name = some (v', none) :=
      alookup_eq_some_of_mem _ hsorted _ _ (hmem_char v' hmem)
    rw [hget] at hlook
    simp at hlook
  · intro v' hmem
    exact alookup_eq_some_of_mem _ hsorted _ _ (hmem_char v' hmem)

/-- Witness for C10: in
`enum Color { RED }; const FOO = 7;` the member `RED` (scoped to `Color`)
is not emitted as a standalone constant, and `FOO` is registered
scope-free. -/
theorem c10_scoped_constants_suppressed_witness :
    (∀ v' : Int, OutItem.constItem "RED" v' ∉
      constSection (Symtab.new [.typespec "Color" (.enum [⟨"RED", none⟩]),
        .const "FOO" 7])) ∧
    (Symtab.new [.typespec "Color" (.enum [⟨"RED", none⟩]), .const "FOO" 7]).getconst
      "FOO" = some (7, none) := by
  constructor
  · exact (c10_scoped_constants_suppressed
      [.typespec "Color" (.enum [⟨"RED", none⟩]), .const "FOO" 7] "RED").1
      ⟨0, "Color", rfl⟩
  · exact (c10_scoped_constants_suppressed
      [.typespec "Color" (.enum [⟨"RED", none⟩]), .const "FOO" 7] "FOO").2 7
      (by
        rw [constSection]
        refine List.mem_filterMap.mpr ⟨("FOO", (7, none)), ?_, rfl⟩
        decide)

/-! ## Claim C9: deterministic, name-sorted emission -/

/-- The name an emitted item is keyed on. -/
def itemName : OutItem → String
  | .constItem n _ => n
  | .typeDef n => n
  | .typeSyn n => n
  | .packItem n => n
  | .unpackItem n => n

/-- Items of a section appear in strictly increasing name order. -/
def sectionSorted (l : List OutItem) : Prop :=
  l.Pairwise fun a b => strLt (itemName a) (itemName b) = true

theorem emapM_ok_mem {A B : Type} (f : A → Except GenErr B) :
    ∀ (l : List A) (out : List B), emapM f l = .ok out →
      ∀ b ∈ out, ∃ a ∈ l, f a = .ok b
  | [], out, h => by
    obtain rfl : out = [] := by rw [emapM] at h; exact (Except.ok.inj h).symm
    simp
  | a0 :: as, out, h => by
    rw [emapM] at h
    match hf : f a0 with
    | .error e => rw [hf] at h; exact absurd h (by simp)
    | .ok b0 =>
      rw [hf] at h
      match hrest : emapM f as with
      | .error e => rw [hrest] at h; exact absurd h (by simp)
      | .ok bs =>
        rw [hrest] at h
        obtain rfl : out = b0 :: bs := (Except.ok.inj h).symm
        intro b hb
        rcases List.mem_cons.mp hb with rfl | hb'
        · exact ⟨a0, List.mem_cons_self _ _, hf⟩
        · obtain ⟨a, ha, hfa⟩ := emapM_ok_mem f as bs hrest b hb'
          exact ⟨a, List.mem_cons_of_mem _ ha, hfa⟩

/-- A section produced by `emapM` over a key-sorted map, each entry
emitting one item named by its key, is name-sorted. -/
theorem emapM_ok_sorted {A : Type} (f : String × A → Except GenErr OutItem)
    (hn : ∀ e it, f e = .ok it → itemName it = e.1) :
    ∀ (l : List (String × A)) (out : List OutItem),
      emapM f l = .ok out → keysSorted l → sectionSorted out
  | [], out, h, _ => by
    obtain rfl : out = [] := by rw [emapM] at h; exact (Except.ok.inj h).symm
    exact List.Pairwise.nil
  | a0 :: as, out, h, hs => by
    rw [emapM] at h
    match hf : f a0 with
    | .error e => rw [hf] at h; exact absurd h (by simp)
    | .ok b0 =>
      rw [hf] at h
      match hrest : emapM f as with
      | .error e => rw [hrest] at h; exact absurd h (by simp)
      | .ok bs =>
        rw [hrest] at h
        obtain rfl : out = b0 :: bs := (Except.ok.inj h).symm
        obtain ⟨hhead, htail⟩ := List.pairwise_cons.mp hs
        refine List.pairwise_cons.mpr ⟨?_, emapM_ok_sorted f hn as bs hrest htail⟩
        intro y hy
        obtain ⟨e, he, hfe⟩ := emapM_ok_mem f as bs hrest y hy
        rw [hn a0 b0 hf, hn e y hfe]
        exact hhead e he

/-- As `emapM_ok_sorted`, for sections that may skip entries
(`filter_map` over pack/unpack implementations). -/
theorem emapM_ok_sorted_opt {A : Type}
    (g : String × A → Except GenErr (Option OutItem))
    (hn : ∀ e o it, g e = .ok o → o = some it → itemName it = e.1) :
    ∀ (l : List (String × A)) (out : List (Option OutItem)),
      emapM g l = .ok out → keysSorted l → sectionSorted out.reduceOption
  | [], out, h, _ => by
    obtain rfl : out = [] := by rw [emapM] at h; exact (Except.ok.inj h).symm
    exact List.Pairwise.nil
  | a0 :: as, out, h, hs => by
    rw [emapM] at h
    match hf : g a0 with
    | .error e => rw [hf] at h; exact absurd h (by simp)
    | .ok b0 =>
      rw [hf] at h
      match hrest : emapM g as with
      | .error e => rw [hrest] at h; exact absurd h (by simp)
      | .ok bs =>
        rw [hrest] at h
        obtain rfl : out = b0 :: bs := (Except.ok.inj h).symm
        obtain ⟨hhead, htail⟩ := List.pairwise_cons.mp hs
        have htails := emapM_ok_sorted_opt g hn as bs hrest htail
        rcases b0 with _ | it0
        · simpa [List.reduceOption] using htails
        · rw [List.reduceOption_cons_of_some]
          refine List.pairwise_cons.mpr ⟨?_, htails⟩
          intro y hy
          rw [List.reduceOption_mem_iff] at hy
          obtain ⟨e, he, hfe⟩ := emapM_ok_mem g as bs hrest (some y) hy
          rw [hn a0 (some it0) it0 hf rfl, hn e (some y) y hfe rfl]
          exact hhead e he

theorem constSection_sorted (st : Symtab) (h : keysSorted st.consts) :
    sectionSorted (constSection st) := by
  rw [constSection]
  refine List.Pairwise.filterMap _ ?_ h
  rintro ⟨k, v, sc⟩ ⟨k', v', sc'⟩ hlt b hb b' hb'
  rcases sc with _ | s
  · rcases sc' with _ | s'
    · obtain rfl : OutItem.constItem k v = b := by simpa using hb
      obtain rfl : OutItem.constItem k' v' = b' := by simpa using hb'
      exact hlt
    · exact absurd hb' (by simp)
  · exact absurd hb (by simp)

/-- C9: generation is a pure function of the definitions (determinism is
definitional in this embedding), the output decomposes into the five
sections — constants, type definitions, type synonyms, pack
implementations, unpack implementations — in that fixed order, and the
entries of every section appear in strictly increasing name order. -/
theorem c9_generate_ordering (fuel : Nat) (defns : List Defn)
    (items : List OutItem) (hgen : generateItems fuel defns = .ok items) :
    ∃ td ts ps us,
      typeDefSection fuel (Symtab.new defns) = .ok td ∧
      typeSynSection fuel (Symtab.new defns) = .ok ts ∧
      packSection fuel (Symtab.new defns) = .ok ps ∧
      unpackSection fuel (Symtab.new defns) = .ok us ∧
      items = constSection (Symtab.new defns) ++ td ++ ts ++ ps ++ us ∧
      sectionSorted (constSection (Symtab.new defns)) ∧
      sectionSorted td ∧ sectionSorted ts ∧ sectionSorted ps ∧ sectionSorted us ∧
      (∀ it ∈ constSection (Symtab.new defns),
        ∃ (n : String) (v : Int), it = .constItem n v) ∧
      (∀ it ∈ td, ∃ n : String, it = .typeDef n) ∧
      (∀ it ∈ ts, ∃ n : String, it = .typeSyn n) ∧
      (∀ it ∈ ps, ∃ n : String, it = .packItem n) ∧
      (∀ it ∈ us, ∃ n : String, it = .unpackItem n) := by
  obtain ⟨hc, hts, hsyn⟩ := symtab_new_sorted defns
  rw [generateItems] at hgen
  match htd : typeDefSection fuel (Symtab.new defns) with
  | .error e => rw [htd] at hgen; exact absurd hgen (by simp [Bind.bind, Except.bind])
  | .ok td =>
  rw [htd] at hgen
  match htsyn : typeSynSection fuel (Symtab.new defns) with
  | .error e => rw [htsyn] at hgen; exact absurd hgen (by simp [Bind.bind, Except.bind])
  | .ok ts =>
  rw [htsyn] at hgen
  match hps : packSection fuel (Symtab.new defns) with
  | .error e => rw [hps] at hgen; exact absurd hgen (by simp [Bind.bind, Except.bind])
  | .ok ps =>
  rw [hps] at hgen
  match hus : unpackSection fuel (Symtab.new defns) with
  | .error e => rw [hus] at hgen; exact absurd hgen (by simp [Bind.bind, Except.bind])
  | .ok us =>
  rw [hus] at hgen
  obtain rfl : items = constSection (Symtab.new defns) ++ td ++ ts ++ ps ++ us := by
    simpa [Bind.bind, Except.bind] using hgen.symm
  -- inversion of the single-item emitters
  have hdefF : ∀ (e : String × Ty) (it : OutItem),
      (do
        let _ ← defineE fuel (Symtab.new defns) e.2
        Except.ok (OutItem.typeDef e.1)) = .ok it → it = .typeDef e.1 := by
    intro e it h
    match hd : defineE fuel (Symtab.new defns) e.2 with
    | .error er => rw [hd] at h; exact absurd h (by simp [Bind.bind, Except.bind])
    | .ok u => rw [hd] at h; simpa [Bind.bind, Except.bind] using h.symm
  have hsynF : ∀ (e : String × Ty) (it : OutItem),
      (do
        let _ ← asToken fuel (Symtab.new defns) e.2
        Except.ok (OutItem.typeSyn e.1)) = .ok it → it = .typeSyn e.1 := by
    intro e it h
    match hd : asToken fuel (Symtab.new defns) e.2 with
    | .error er => rw [hd] at h; exact absurd h (by simp [Bind.bind, Except.bind])
    | .ok u => rw [hd] at h; simpa [Bind.bind, Except.bind] using h.symm
  have hpackF : ∀ (e : String × Ty) (o : Option OutItem),
      (do
        let b ← tsPack fuel (Symtab.new defns) e.2
        Except.ok (b.map fun _ => OutItem.packItem e.1)) = .ok o →
      ∀ it : OutItem, o = some it → it = .packItem e.1 := by
    intro e o h it ho
    match hd : tsPack fuel (Symtab.new defns) e.2 with
    | .error er => rw [hd] at h; exact absurd h (by simp [Bind.bind, Except.bind])
    | .ok b =>
      rw [hd] at h
      obtain rfl : o = b.map fun _ => OutItem.packItem e.1 := by
        simpa [Bind.bind, Except.bind] using h.symm
      rcases b with _ | b0
      · exact absurd ho (by simp)
      · simpa using ho.symm
  have hunpF : ∀ (e : String × Ty) (o : Option OutItem),
      (do
        let b ← tsUnpack fuel (Symtab.new defns) e.1 e.2
        Except.ok (b.map fun _ => OutItem.unpackItem e.1)) = .ok o →
      ∀ it : OutItem, o = some it → it = .unpackItem e.1 := by
    intro e o h it ho
    match hd : tsUnpack fuel (Symtab.new defns) e.1 e.2 with
    | .error er => rw [hd] at h; exact absurd h (by simp [Bind.bind, Except.bind])
    | .ok b =>
      rw [hd] at h
      obtain rfl : o = b.map fun _ => OutItem.unpackItem e.1 := by
        simpa [Bind.bind, Except.bind] using h.symm
      rcases b with _ | b0
      · exact absurd ho (by simp)
      · simpa using ho.symm
  -- unfold the two reduceOption sections
  rw [packSection] at hps
  obtain ⟨ps0, hps0, rfl⟩ : ∃ ps0,
      emapM (fun e => do
        let b ← tsPack fuel (Symtab.new defns) e.2
        Except.ok (b.map fun _ => OutItem.packItem e.1))
        (Symtab.new defns).typespecs = .ok ps0 ∧ ps = ps0.reduceOption := by
    match hm : emapM (fun e => do
        let b ← tsPack fuel (Symtab.new defns) e.2
        Except.ok (b.map fun _ => OutItem.packItem e.1))
        (Symtab.new defns).typespecs with
    | .error er => rw [hm] at hps; exact absurd hps (by simp [Bind.bind, Except.bind])
    | .ok l =>
      rw [hm] at hps
      exact ⟨l, hm, by simpa [Bind.bind, Except.bind] using hps.symm⟩
  rw [unpackSection] at hus
  obtain ⟨us0, hus0, rfl⟩ : ∃ us0,
      emapM (fun e => do
        let b ← tsUnpack fuel (Symtab.new defns) e.1 e.2
        Except.ok (b.map fun _ => OutItem.unpackItem e.1))
        (Symtab.new defns).typespecs = .ok us0 ∧ us = us0.reduceOption := by
    match hm : emapM (fun e => do
        let b ← tsUnpack fuel (Symtab.new defns) e.1 e.2
        Except.ok (b.map fun _ => OutItem.unpackItem e.1))
        (Symtab.new defns).typespecs with
    | .error er => rw [hm] at hus; exact absurd hus (by simp [Bind.bind, Except.bind])
    | .ok l =>
      rw [hm] at hus
      exact ⟨l, hm, by simpa [Bind.bind, Except.bind] using hus.symm⟩
  refine ⟨td, ts, ps0.reduceOption, us0.reduceOption, rfl, rfl, rfl, rfl, rfl,
    constSection_sorted _ hc, ?_, ?_, ?_, ?_, ?_, ?_, ?_, ?_, ?_⟩
  · rw [typeDefSection] at htd
    exact emapM_ok_sorted _ (fun e it h => by rw [hdefF e it h]; rfl) _ td htd hts
  · rw [typeSynSection] at htsyn
    exact emapM_ok_sorted _ (fun e it h => by rw [hsynF e it h]; rfl) _ ts htsyn hsyn
  · exact emapM_ok_sorted_opt _
      (fun e o it h ho => by rw [hpackF e o h it ho]; rfl) _ ps0 hps0 hts
  · exact emapM_ok_sorted_opt _
      (fun e o it h ho => by rw [hunpF e o h it ho]; rfl) _ us0 hus0 hts
  · intro it hit
    rw [constSection] at hit
    obtain ⟨e, _, hfe⟩ := List.mem_filterMap.mp hit
    obtain ⟨k, v, sc⟩ := e
    rcases sc with _ | s
    · exact ⟨k, v, by simpa using hfe.symm⟩
    · exact absurd hfe (by simp)
  · intro it hit
    rw [typeDefSection] at htd
    obtain ⟨e, _, hfe⟩ := emapM_ok_mem _ _ td htd it hit
    exact ⟨e.1, hdefF e it hfe⟩
  · intro it hit
    rw [typeSynSection] at htsyn
    obtain ⟨e, _, hfe⟩ := emapM_ok_mem _ _ ts htsyn it hit
    exact ⟨e.1, hsynF e it hfe⟩
  · intro it hit
    rw [List.reduceOption_mem_iff] at hit
    obtain ⟨e, _, hfe⟩ := emapM_ok_mem _ _ ps0 hps0 (some it) hit
    exact ⟨e.1, hpackF e (some it) hfe it rfl⟩
  · intro it hit
    rw [List.reduceOption_mem_iff] at hit
    obtain ⟨e, _, hfe⟩ := emapM_ok_mem _ _ us0 hus0 (some it) hit
    exact ⟨e.1, hunpF e (some it) hfe it rfl⟩

/-- Witness for C9 on
`enum Color { RED }; const FOO = 7; typedef int MyInt;`. -/
theorem c9_generate_ordering_witness :
    ∃ items td ts ps us : List OutItem,
      generateItems 2
        [.typespec "Color" (.enum [⟨"RED", none⟩]), .const "FOO" 7,
         .typesyn "MyInt" .int] = .ok items ∧
      items =
        constSection (Symtab.new
          [.typespec "Color" (.enum [⟨"RED", none⟩]), .const "FOO" 7,
           .typesyn "MyInt" .int]) ++ td ++ ts ++ ps ++ us ∧
      sectionSorted td ∧ sectionSorted ps := by
  obtain ⟨td, ts, ps, us, htd, htsyn, hps, hus, hitems, hcs, hstd, hsts, hsps,
    hsus, _⟩ :=
    c9_generate_ordering 2
      [.typespec "Color" (.enum [⟨"RED", none⟩]), .const "FOO" 7,
       .typesyn "MyInt" .int] _ rfl
  exact ⟨_, td, ts, ps, us, rfl, hitems, hstd, hsps⟩

/-- C8: `Ident` typespecs and typespecs whose type is primitive (per
`is_prim`, which resolves identifier references) emit neither a pack nor
an unpack implementation: both emitters return `Ok(None)` and the blanket
runtime implementation is inherited. -/
theorem c8_ident_prim_inherit (pf : Nat) (st : Symtab) (name : String) (ty : Ty)
    (h : (∃ (n : String) (d : Option Derives), ty = .ident n d) ∨
      isPrimO pf st ty = some true) :
    tsPack pf st ty = .ok none ∧ tsUnpack pf st name ty = .ok none := by
  rcases h with ⟨n, d, rfl⟩ | hp
  · exact ⟨rfl, rfl⟩
  · cases ty <;>
      first
      | (constructor <;> simp [tsPack, tsUnpack, hp] <;> done)
      | (rcases pf with _ | f <;> simp [isPrimO] at hp)

/-- Witness for C8: an external `Ident` typespec and an `int` typespec
both emit no pack and no unpack. -/
theorem c8_ident_prim_inherit_witness :
    (tsPack 1 ⟨[], [], []⟩ (.ident "Ext" none) = .ok none ∧
      tsUnpack 1 ⟨[], [], []⟩ "T" (.ident "Ext" none) = .ok none) ∧
    (tsPack 1 ⟨[], [], []⟩ .int = .ok none ∧
      tsUnpack 1 ⟨[], [], []⟩ "N" .int = .ok none) :=
  ⟨c8_ident_prim_inherit 1 ⟨[], [], []⟩ "T" (.ident "Ext" none)
      (.inl ⟨"Ext", none, rfl⟩),
    c8_ident_prim_inherit 1 ⟨[], [], []⟩ "N" .int (.inr rfl)⟩

/-! ## Claim C4: the union selector-compatibility check -/

/-- Counterexample to C4 as stated: in
`union U switch (int s) { case 0: struct{} a; case undefined: void; }`
the second case is incompatible (an identifier on an `int` selector), yet
`define` fails with `UnnamedType` — the first case's inline-struct payload
fails rendering before the incompatible case is reached — so "fails with
an incompatible-selector error iff some case is incompatible" is false. -/
theorem c4_counterexample :
    ¬ ((∃ (s : Decl) (v : Value),
        defineE 1 ⟨[], [], []⟩
          (.union (.named "s" .int)
            [(.const 0, .named "a" (.struct [])), (.ident "undefined", .void)]
            none) = .error (.incompatSelector s v)) ↔
      (∃ c ∈ [((Value.const 0 : Value), Decl.named "a" (.struct [])),
              ((Value.ident "undefined" : Value), Decl.void)],
        compatcase ⟨[], [], []⟩ (.named "s" .int) c.1 = false)) := by
  intro h
  obtain ⟨s, v, heq⟩ := h.mpr
    ⟨(.ident "undefined", .void), by decide, by decide⟩
  have hval : defineE 1 ⟨[], [], []⟩
      (.union (.named "s" .int)
        [(.const 0, .named "a" (.struct [])), (.ident "undefined", .void)]
        none) = .error (.unnamedType (.struct [])) := rfl
  rw [hval] at heq
  exact GenErr.noConfusion (Except.error.inj heq)

/-- Inversion for a failing `Except` bind. -/
theorem exceptBind_err {A B : Type} {m : Except GenErr A} {g : A → Except GenErr B}
    {e : GenErr} (h : (m >>= g) = .error e) :
    m = .error e ∨ ∃ a, m = .ok a ∧ g a = .error e := by
  match hm : m with
  | .error e1 => exact .inl (by simpa [Bind.bind, Except.bind] using h)
  | .ok a => exact .inr ⟨a, rfl, by simpa [Bind.bind, Except.bind] using h⟩

/-- The only failures of `Type::as_token` are `UnnamedType` (and exhausted
fuel in the model); in particular it never produces an
incompatible-selector error. -/
theorem asToken_err_shape :
    ∀ (bf : Nat) (st : Symtab) (ty : Ty) (e : GenErr),
      asToken bf st ty = .error e →
      (∃ t1 : Ty, e = .unnamedType t1) ∨ e = .fuelOut
  | _, _, .int, _, h => by simp [asToken] at h
  | _, _, .uint, _, h => by simp [asToken] at h
  | _, _, .hyper, _, h => by simp [asToken] at h
  | _, _, .uhyper, _, h => by simp [asToken] at h
  | _, _, .float, _, h => by simp [asToken] at h
  | _, _, .double, _, h => by simp [asToken] at h
  | _, _, .quadruple, _, h => by simp [asToken] at h
  | _, _, .bool, _, h => by simp [asToken] at h
  | _, _, .string, _, h => by simp [asToken] at h
  | _, _, .Opaque, _, h => by simp [asToken] at h
  | _, _, .ident n d, _, h => by simp [asToken] at h
  | _, _, .enum ds, e, h => .inl ⟨.enum ds, by simpa [asToken] using h.symm⟩
  | _, _, .struct ds, e, h => .inl ⟨.struct ds, by simpa [asToken] using h.symm⟩
  | _, _, .union s cs dl, e, h =>
    .inl ⟨.union s cs dl, by simpa [asToken] using h.symm⟩
  | bf, st, .option t, e, h => by
    rw [asToken] at h
    rcases exceptBind_err h with h1 | ⟨tok, htok, h1⟩
    · exact asToken_err_shape bf st t e h1
    · match hb : isBoxed bf st t with
      | none => rw [hb] at h1; exact .inr (by simpa using h1.symm)
      | some b => rw [hb] at h1; rcases b with _ | _ <;> simp at h1
  | bf, st, .array t sz, e, h => by
    cases t <;> rw [asToken] at h <;>
      first
      | (simp [asToken, Bind.bind, Except.bind] at h; done)
      | (rcases exceptBind_err h with h1 | ⟨tok, htok, h1⟩ <;>
          first
          | exact asToken_err_shape bf st _ e h1
          | (simp at h1))
      | simp
  | bf, st, .flex t m, e, h => by
    cases t <;> rw [asToken] at h <;>
      first
      | (simp [asToken, Bind.bind, Except.bind] at h; done)
      | (rcases exceptBind_err h with h1 | ⟨tok, htok, h1⟩ <;>
          first
          | exact asToken_err_shape bf st _ e h1
          | (simp at h1))
      | simp

theorem asToken_no_incompat (bf : Nat) (st : Symtab) (ty : Ty) (e : GenErr)
    (h : asToken bf st ty = .error e) (s : Decl) (v : Value) :
    e ≠ .incompatSelector s v := by
  rcases asToken_err_shape bf st ty e h with ⟨t1, rfl⟩ | rfl <;> simp

/-- The union-case check of the first failing case decides whether the
case traversal of `define` fails with the incompatible-selector error. -/
theorem defineCases_incompat (bf : Nat) (st : Symtab) (sel : Decl) :
    ∀ cases : List UnionCase,
    (∃ e, emapM (defineCaseE bf st sel) cases = .error e ∧
        ∃ (s : Decl) (v : Value), e = GenErr.incompatSelector s v) ↔
      (∃ (i : Nat) (c : UnionCase), cases[i]? = some c ∧
        compatcase st sel c.1 = false ∧
        ∀ j < i, ∃ cj : UnionCase, cases[j]? = some cj ∧
          defineCaseE bf st sel cj = .ok ())
  | [] => by
    constructor
    · rintro ⟨e, he, -⟩
      rw [emapM] at he
      exact absurd he (by simp)
    · rintro ⟨i, c, hc, -, -⟩
      simp at hc
  | c0 :: cs => by
    rcases hc : compatcase st sel c0.1 with _ | _
    · -- first case incompatible: the traversal fails with IncompatSelector
      have he : emapM (defineCaseE bf st sel) (c0 :: cs) =
          .error (.incompatSelector sel c0.1) := by
        rw [emapM]
        rw [show defineCaseE bf st sel c0 =
          .error (.incompatSelector sel c0.1) by rw [defineCaseE, hc]; rfl]
      refine iff_of_true ⟨_, he, sel, c0.1, rfl⟩ ⟨0, c0, by simp, hc, by omega⟩
    · -- first case compatible
      match hd : defineCaseE bf st sel c0 with
      | .error e0 =>
        have hne : ∀ (s : Decl) (v : Value), e0 ≠ .incompatSelector s v := by
          rw [defineCaseE, hc] at hd
          simp only [Bool.not_true, if_false] at hd
          match c0, hd with
          | (cv, .void), hd => exact absurd hd (by simp)
          | (cv, .named nm ty), hd =>
            rcases exceptBind_err hd with h1 | ⟨tok, htok, h1⟩
            · exact asToken_no_incompat bf st ty e0 h1
            · exact absurd h1 (by simp)
        have he : emapM (defineCaseE bf st sel) (c0 :: cs) = .error e0 := by
          rw [emapM, hd]
        refine iff_of_false ?_ ?_
        · rintro ⟨e, hee, s, v, rfl⟩
          rw [he] at hee
          exact hne s v (Except.error.inj hee)
        · rintro ⟨i, c, hci, hcf, hprev⟩
          rcases i with _ | i'
          · obtain rfl : c0 = c := by simpa using hci
            rw [hc] at hcf
            exact absurd hcf (by simp)
          · obtain ⟨cj, hcj, hok⟩ := hprev 0 (by omega)
            obtain rfl : c0 = cj := by simpa using hcj
            rw [hd] at hok
            exact absurd hok (by simp)
      | .ok u =>
        obtain rfl : u = () := rfl
        constructor
        · rintro ⟨e, hee, s, v, rfl⟩
          rw [emapM, hd] at hee
          match hm : emapM (defineCaseE bf st sel) cs with
          | .ok bs => rw [hm] at hee; exact absurd hee (by simp)
          | .error e1 =>
            rw [hm] at hee
            obtain rfl : e1 = .incompatSelector s v := by simpa using hee
            obtain ⟨i, c, hci, hcf, hprev⟩ :=
              (defineCases_incompat bf st sel cs).mp ⟨_, hm, s, v, rfl⟩
            refine ⟨i + 1, c, by simpa using hci, hcf, ?_⟩
            intro j hj
            rcases j with _ | j'
            · exact ⟨c0, by simp, hd⟩
            · obtain ⟨cj, hcj, hok⟩ := hprev j' (by omega)
              exact ⟨cj, by simpa using hcj, hok⟩
        · rintro ⟨i, c, hci, hcf, hprev⟩
          rcases i with _ | i'
          · obtain rfl : c0 = c := by simpa using hci
            rw [hc] at hcf
            exact absurd hcf (by simp)
          · obtain ⟨e, hm, s, v, rfl⟩ :=
              (defineCases_incompat bf st sel cs).mpr
                ⟨i', c, by simpa using hci, hcf, fun j hj => by
                  obtain ⟨cj, hcj, hok⟩ := hprev (j + 1) (by omega)
                  exact ⟨cj, by simpa using hcj, hok⟩⟩
            refine ⟨.incompatSelector s v, ?_, s, v, rfl⟩
            rw [emapM, hd, hm]

/-- The default-variant stage of `define` never produces the
incompatible-selector error. -/
theorem deflStage_no_incompat (bf : Nat) (st : Symtab) (defl : Option Decl)
    (e : GenErr)
    (h : (match defl with
          | some (.named _ dty) => do
            let _ ← asToken bf st dty
            (match isBoxed bf st dty with
             | none => Except.error GenErr.fuelOut
             | some _ => Except.ok ())
          | some .void => Except.ok ()
          | none => Except.ok ()) = .error e) :
    ∀ (s : Decl) (v : Value), e ≠ .incompatSelector s v := by
  match defl with
  | none => exact absurd h (by simp)
  | some .void => exact absurd h (by simp)
  | some (.named _ dty) =>
    rcases exceptBind_err h with h1 | ⟨tok, htok, h1⟩
    · exact asToken_no_incompat bf st dty e h1
    · match hb : isBoxed bf st dty with
      | none =>
        rw [hb] at h1
        obtain rfl : e = .fuelOut := (Except.error.inj h1).symm
        simp
      | some b => rw [hb] at h1; exact absurd h1 (by simp)

/-- The source's `compatcase` agrees with the claim's wording of the
compatibility rules at every selector and case value. -/
theorem compatcase_eq_spec : ∀ (st : Symtab) (sel : Decl) (v : Value),
    compatcase st sel v = compatSpec st sel v
  | st, .void, v => rfl
  | st, .named n seltype, .const v => by
    delta compatcase compatSpec
    rcases le_or_lt 0 v with h | h
    · cases seltype <;> simp [h, not_lt.mpr h]
    · cases seltype <;> simp [h, not_le.mpr h]
  | st, .named n seltype, .ident id => by
    delta compatcase compatSpec
    cases seltype <;> simp

/-- C4 (amended): the compatibility rules are as the claim words them,
but `define` fails with the incompatible-selector error iff the FIRST
failing union case is an incompatible one — an earlier case whose payload
fails to render (e.g. an unnamed inline type) masks a later incompatible
case, so "some case is incompatible" alone is not equivalent. -/
theorem c4_union_incompat_amended (bf : Nat) (st : Symtab) (sel : Decl)
    (cases : List UnionCase) (defl : Option Decl) :
    (∀ v : Value, compatcase st sel v = compatSpec st sel v) ∧
    ((∃ (s : Decl) (v : Value),
        defineE bf st (.union sel cases defl) =
          .error (.incompatSelector s v)) ↔
      ∃ (i : Nat) (c : UnionCase), cases[i]? = some c ∧
        compatcase st sel c.1 = false ∧
        ∀ j < i, ∃ cj : UnionCase, cases[j]? = some cj ∧
          defineCaseE bf st sel cj = .ok ()) := by
  refine ⟨compatcase_eq_spec st sel, ?_, ?_⟩
  · rintro ⟨s, v, h⟩
    simp only [defineE] at h
    rcases exceptBind_err h with h1 | ⟨a, ha, h1⟩
    · exact (defineCases_incompat bf st sel cases).mp ⟨_, h1, s, v, rfl⟩
    · exact absurd rfl (deflStage_no_incompat bf st defl _ h1 s v)
  · intro hx
    obtain ⟨e, hm, s, v, rfl⟩ := (defineCases_incompat bf st sel cases).mpr hx
    refine ⟨s, v, ?_⟩
    simp only [defineE, Bind.bind, Except.bind]
    rw [hm]

/-! ## C6: COPY derivation and containment -/

theorem inter_copy (a b : Derives) : (a.inter b).copy = (a.copy && b.copy) := rfl

theorem memoFind_mem {m : Memo} {t : Ty} {res : Derives}
    (h : memoFind m t = some res) : (t, res) ∈ m := by
  unfold memoFind at h
  obtain ⟨e, hf, he⟩ := Option.map_eq_some'.mp h
  obtain ⟨a, b⟩ := e
  have hp := List.find?_some hf
  have h1 : a = t := of_decide_eq_true hp
  subst h1
  obtain rfl : b = res := he
  exact List.mem_of_find?_eq_some hf

theorem memoSound_nil (st : Symtab) : memoSound st [] :=
  fun p hp => absurd hp (List.not_mem_nil p)

theorem memoSound_cons {st : Symtab} {m : Memo} (t : Ty) (d : Derives)
    (hm : memoSound st m) (hd : d.copy = true → badAll st t) :
    memoSound st ((t, d) :: m) := by
  intro p hp
  rcases List.mem_cons.mp hp with rfl | hp
  · exact hd
  · exact hm p hp

theorem declsBad_false (st : Symtab) :
    ∀ (cf : Nat) (ds : List Decl), (∀ d ∈ ds, declAllOk st d) →
      declsBad cf st ds = false
  | 0, _, _ => rfl
  | _ + 1, [], _ => rfl
  | cf + 1, d :: ds, h => by
    rw [declsBad, h d (by simp) cf,
      declsBad_false st cf ds fun d' hd' => h d' (by simp [hd'])]
    rfl

theorem casesBad_false (st : Symtab) :
    ∀ (cf : Nat) (cs : List UnionCase), (∀ c ∈ cs, declAllOk st c.2) →
      casesBad cf st cs = false
  | 0, _, _ => rfl
  | _ + 1, [], _ => rfl
  | cf + 1, c :: cs, h => by
    rw [casesBad, h c (by simp) cf,
      casesBad_false st cf cs fun c' hc' => h c' (by simp [hc'])]
    rfl

/-- Soundness of `derivable` for the COPY flag: from a sound memo the
output memo is sound, and a result carrying COPY means the type contains
no COPY-forbidding construct in derivation-relevant positions. -/
theorem derivable_sound : ∀ f : Nat,
    (∀ (st : Symtab) (m : Memo) (t : Ty), memoSound st m →
      memoSound st (derivable f st m t).2 ∧
      ((derivable f st m t).1.copy = true → badAll st t)) ∧
    (∀ (st : Symtab) (m : Memo) (d : Decl), memoSound st m →
      memoSound st (declDerivable f st m d).2 ∧
      ((declDerivable f st m d).1.copy = true → declAllOk st d)) ∧
    (∀ (st : Symtab) (m : Memo) (ds : List Decl) (acc : Derives),
      memoSound st m →
      memoSound st (declFold f st m ds acc).2 ∧
      ((declFold f st m ds acc).1.copy = true →
        acc.copy = true ∧ ∀ d ∈ ds, declAllOk st d)) ∧
    (∀ (st : Symtab) (m : Memo) (cs : List UnionCase) (acc : Derives),
      memoSound st m →
      memoSound st (caseFold f st m cs acc).2 ∧
      ((caseFold f st m cs acc).1.copy = true →
        acc.copy = true ∧ ∀ c ∈ cs, declAllOk st c.2)) := by
  intro f
  induction f with
  | zero =>
    exact ⟨fun st m t hm => ⟨hm, fun h => Bool.noConfusion h⟩,
           fun st m d hm => ⟨hm, fun h => Bool.noConfusion h⟩,
           fun st m ds acc hm => ⟨hm, fun h => Bool.noConfusion h⟩,
           fun st m cs acc hm => ⟨hm, fun h => Bool.noConfusion h⟩⟩
  | succ f ih =>
    obtain ⟨ihD, ihDecl, ihFold, ihCase⟩ := ih
    have hDecl : ∀ (st : Symtab) (m : Memo) (d : Decl), memoSound st m →
        memoSound st (declDerivable (f + 1) st m d).2 ∧
        ((declDerivable (f + 1) st m d).1.copy = true → declAllOk st d) := by
      intro st m d hm
      rcases d with _ | ⟨nm, ty⟩
      · exact ⟨hm, fun _ cf => by cases cf <;> rfl⟩
      · obtain ⟨h1, h2⟩ := ihD st m ty hm
        refine ⟨h1, fun h cf => ?_⟩
        cases cf with
        | zero => rfl
        | succ cf => exact h2 h cf
    have hFold : ∀ (st : Symtab) (m : Memo) (ds : List Decl) (acc : Derives),
        memoSound st m →
        memoSound st (declFold (f + 1) st m ds acc).2 ∧
        ((declFold (f + 1) st m ds acc).1.copy = true →
          acc.copy = true ∧ ∀ d ∈ ds, declAllOk st d) := by
      intro st m ds acc hm
      rcases ds with _ | ⟨d, ds⟩
      · exact ⟨hm, fun h => ⟨h, by simp⟩⟩
      · obtain ⟨h1, h2⟩ := ihDecl st m d hm
        obtain ⟨h3, h4⟩ := ihFold st (declDerivable f st m d).2 ds
          (acc.inter (declDerivable f st m d).1) h1
        refine ⟨h3, fun hc => ?_⟩
        obtain ⟨hic, hall⟩ := h4 hc
        rw [inter_copy, Bool.and_eq_true] at hic
        obtain ⟨hacc, hp⟩ := hic
        refine ⟨hacc, fun d' hd' => ?_⟩
        rcases List.mem_cons.mp hd' with rfl | hd'
        · exact h2 hp
        · exact hall d' hd'
    have hCase : ∀ (st : Symtab) (m : Memo) (cs : List UnionCase) (acc : Derives),
        memoSound st m →
        memoSound st (caseFold (f + 1) st m cs acc).2 ∧
        ((caseFold (f + 1) st m cs acc).1.copy = true →
          acc.copy = true ∧ ∀ c ∈ cs, declAllOk st c.2) := by
      intro st m cs acc hm
      rcases cs with _ | ⟨c, cs⟩
      · exact ⟨hm, fun h => ⟨h, by simp⟩⟩
      · obtain ⟨h1, h2⟩ := ihDecl st m c.2 hm
        obtain ⟨h3, h4⟩ := ihCase st (declDerivable f st m c.2).2 cs
          (acc.inter (declDerivable f st m c.2).1) h1
        refine ⟨h3, fun hc => ?_⟩
        obtain ⟨hic, hall⟩ := h4 hc
        rw [inter_copy, Bool.and_eq_true] at hic
        obtain ⟨hacc, hp⟩ := hic
        refine ⟨hacc, fun c' hc' => ?_⟩
        rcases List.mem_cons.mp hc' with rfl | hc'
        · exact h2 hp
        · exact hall c' hc'
    refine ⟨?_, hDecl, hFold, hCase⟩
    intro st m t hm
    rcases hf : memoFind m t with _ | res
    · -- memo miss
      have hm1 : memoSound st ((t, Derives.empty) :: m) :=
        memoSound_cons t Derives.empty hm fun h => Bool.noConfusion h
      rcases t with _ | _ | _ | _ | _ | _ | _ | _ | _ | _ |
        ds | fields | ⟨sel, cases, defl⟩ | ty | ⟨ty, len⟩ | ⟨ty, msz⟩ | ⟨id, ods⟩
      case struct =>
        simp only [derivable, hf]
        obtain ⟨h1, h2⟩ := ihFold st ((Ty.struct fields, Derives.empty) :: m)
          fields Derives.all hm1
        have hb : (declFold f st ((Ty.struct fields, Derives.empty) :: m)
            fields Derives.all).1.copy = true → badAll st (.struct fields) := by
          intro h cf
          cases cf with
          | zero => rfl
          | succ cf => exact declsBad_false st cf fields (h2 h).2
        exact ⟨memoSound_cons _ _ h1 hb, hb⟩
      case union =>
        simp only [derivable, hf]
        obtain ⟨h1, h2⟩ := ihCase st ((Ty.union sel cases defl, Derives.empty) :: m)
          cases Derives.all hm1
        rcases defl with _ | d
        · have hb : ((caseFold f st ((Ty.union sel cases none, Derives.empty) :: m)
              cases Derives.all).1.inter Derives.all).copy = true →
              badAll st (.union sel cases none) := by
            intro h cf
            rw [inter_copy, Bool.and_eq_true] at h
            obtain ⟨hp, -⟩ := h
            cases cf with
            | zero => rfl
            | succ cf =>
              show (casesBad cf st cases || declOptBad cf st none) = false
              rw [casesBad_false st cf cases (h2 hp).2]
              cases cf <;> rfl
          exact ⟨memoSound_cons _ _ h1 hb, hb⟩
        · obtain ⟨h3, h4⟩ := ihDecl st
            (caseFold f st ((Ty.union sel cases (some d), Derives.empty) :: m)
              cases Derives.all).2 d h1
          have hb : ((caseFold f st
              ((Ty.union sel cases (some d), Derives.empty) :: m)
              cases Derives.all).1.inter
              (declDerivable f st (caseFold f st
                ((Ty.union sel cases (some d), Derives.empty) :: m)
                cases Derives.all).2 d).1).copy = true →
              badAll st (.union sel cases (some d)) := by
            intro h cf
            rw [inter_copy, Bool.and_eq_true] at h
            obtain ⟨hp, hq⟩ := h
            cases cf with
            | zero => rfl
            | succ cf =>
              show (casesBad cf st cases || declOptBad cf st (some d)) = false
              rw [casesBad_false st cf cases (h2 hp).2]
              cases cf with
              | zero => rfl
              | succ cf =>
                show (false || declBadD cf st d) = false
                rw [h4 hq cf]
                rfl
          exact ⟨memoSound_cons _ _ h3 hb, hb⟩
      case option =>
        simp only [derivable, hf]
        obtain ⟨h1, h2⟩ := ihD st ((Ty.option ty, Derives.empty) :: m) ty hm1
        exact ⟨memoSound_cons _ _ h1 fun h => Bool.noConfusion h,
               fun h => Bool.noConfusion h⟩
      case flex =>
        simp only [derivable, hf]
        obtain ⟨h1, h2⟩ := ihD st ((Ty.flex ty msz, Derives.empty) :: m) ty hm1
        exact ⟨memoSound_cons _ _ h1 fun h => Bool.noConfusion h,
               fun h => Bool.noConfusion h⟩
      case array =>
        simp only [derivable, hf]
        rcases hv : st.value len with _ | v
        · simp only [hv]
          rcases ty <;>
            first
            | exact ⟨memoSound_cons _ _ hm1 fun h => Bool.noConfusion h,
                     fun h => Bool.noConfusion h⟩
            | exact ⟨memoSound_cons _ _ (ihD st _ _ hm1).1
                       fun h => Bool.noConfusion h,
                     fun h => Bool.noConfusion h⟩
        · simp only [hv]
          by_cases hle : v ≤ 32
          · rw [if_pos hle]
            rcases ty <;>
              first
              | exact ⟨memoSound_cons _ _ hm1 fun _ cf => (by
                    cases cf with
                    | zero => rfl
                    | succ cf => simp [containsBad, hv, hle]),
                  fun _ cf => by
                    cases cf with
                    | zero => rfl
                    | succ cf => simp [containsBad, hv, hle]⟩
              | (obtain ⟨h1, h2⟩ := ihD st _ _ hm1
                 exact ⟨memoSound_cons _ _ h1 fun h cf => (by
                      cases cf with
                      | zero => rfl
                      | succ cf => simp [containsBad, hv, hle, h2 h cf]),
                    fun h cf => by
                      cases cf with
                      | zero => rfl
                      | succ cf => simp [containsBad, hv, hle, h2 h cf]⟩)
          · rw [if_neg hle]
            rcases ty <;>
              first
              | exact ⟨memoSound_cons _ _ hm1 fun h => Bool.noConfusion h,
                       fun h => Bool.noConfusion h⟩
              | exact ⟨memoSound_cons _ _ (ihD st _ _ hm1).1
                         fun h => Bool.noConfusion h,
                       fun h => Bool.noConfusion h⟩
      case ident =>
        rcases ods with _ | ders
        · simp only [derivable, hf]
          rcases hts : st.typespec id with _ | ty
          · simp only [hts]
            exact ⟨memoSound_cons _ _ hm1 fun h => Bool.noConfusion h,
                   fun h => Bool.noConfusion h⟩
          · simp only [hts]
            obtain ⟨h1, h2⟩ :=
              ihD st ((Ty.ident id none, Derives.empty) :: m) ty hm1
            have hb : (derivable f st ((Ty.ident id none, Derives.empty) :: m)
                ty).1.copy = true → badAll st (.ident id none) := by
              intro h cf
              cases cf with
              | zero => rfl
              | succ cf =>
                show (match st.typespec id with
                      | some ty => containsBad cf st ty
                      | none => false) = false
                rw [hts]
                exact h2 h cf
            exact ⟨memoSound_cons _ _ h1 hb, hb⟩
        · simp only [derivable, hf]
          exact ⟨memoSound_cons _ _ hm1 fun _ cf => by cases cf <;> rfl,
                 fun _ cf => by cases cf <;> rfl⟩
      -- the leaf shapes: syntactic primitives, floats and enums keep a
      -- COPY-carrying set and contain nothing; a top-level String/Opaque
      -- drops COPY
      all_goals simp only [derivable, hf]
      all_goals first
        | (refine ⟨memoSound_cons _ _ hm1 fun _ cf => ?_, fun _ cf => ?_⟩ <;>
            (cases cf <;> rfl))
        | exact ⟨memoSound_cons _ _ hm1 fun h => Bool.noConfusion h,
                 fun h => Bool.noConfusion h⟩
    · -- memo hit
      simp only [derivable, hf]
      exact ⟨hm, fun h => hm (t, res) (memoFind_mem hf) h⟩

/-- Counterexample to C6 as stated: the fixed array `string<1>[1]`-style
type `Array(String, 1)` is treated as a byte array by `derivable` and
keeps the full derive set including COPY, yet it contains a `String` —
so "COPY implies the type contains no String" is false. -/
theorem c6_counterexample :
    ¬ ((derives 2 ⟨[], [], []⟩ (.array .string (.const 1))).copy = true →
       containsC6 2 ⟨[], [], []⟩ (.array .string (.const 1)) = false) :=
  fun h => Bool.noConfusion (h rfl)

/-- C6 (amended): a computed derive set containing COPY means the type
contains no `Flex`, `String`, `Opaque`, `Option` and no fixed array of
resolved length above 32 in derivation-relevant positions: the union
selector is not visited, preset-derive and unresolvable identifiers are
not inspected, and the element of an array over `String`/`Opaque` is
exempt (such an array is emitted as a byte array `[u8; n]`, which is why
`Array(String, 1)` keeps COPY and refutes the original wording). -/
theorem c6_copy_containment (fuel cf : Nat) (st : Symtab) (t : Ty)
    (h : (derives fuel st t).copy = true) : containsBad cf st t = false :=
  ((derivable_sound fuel).1 st [] t (memoSound_nil st)).2 h cf

/-- Witness for C6 (amended) at the byte-array type `Array(String, 1)`:
its derive set has COPY and the amended containment finds nothing. -/
theorem c6_copy_containment_witness :
    (derives 2 ⟨[], [], []⟩ (.array .string (.const 1))).copy = true ∧
    containsBad 3 ⟨[], [], []⟩ (.array .string (.const 1)) = false :=
  ⟨rfl, c6_copy_containment 2 3 ⟨[], [], []⟩ (.array .string (.const 1)) rfl⟩

/-! ## C7: `is_boxed` and the rendering of `Option` -/

/-- A primitive type (per `is_prim`, identifiers resolved) is not boxed
under the amended wording. -/
theorem prim_not_boxedSpec : ∀ (f : Nat) (st : Symtab) (t : Ty),
    isPrimO f st t = some true → boxedSpec f st t = some false := by
  intro f
  induction f with
  | zero => intro st t h; simp [isPrimO] at h
  | succ f ih =>
    intro st t h
    rcases t with _ | _ | _ | _ | _ | _ | _ | _ | _ | _ |
      ds | fields | ⟨sel, cs, dfl⟩ | ty | ⟨ty, len⟩ | ⟨ty, msz⟩ | ⟨id, od⟩
    case ident =>
      rcases hts : st.typespec id with _ | ty
      · simp only [isPrimO, hts] at h
        exact absurd h (by simp)
      · simp only [isPrimO, hts] at h
        show (match st.typespec id with
              | some ty => boxedSpec f st ty
              | none => some true) = some false
        rw [hts]
        exact ih st ty h
    all_goals first
      | rfl
      | simp [isPrimO] at h

/-- `is_boxed` agrees with the amended wording at every fuel level. -/
theorem isBoxed_boxedSpec : ∀ (f : Nat) (st : Symtab) (t : Ty) (b : Bool),
    isBoxed f st t = some b → boxedSpec f st t = some b := by
  intro f
  induction f with
  | zero => intro st t b h; simp [isBoxed] at h
  | succ f ih =>
    intro st t b h
    rcases hp : isPrimO (f + 1) st t with _ | bp
    · simp [isBoxed, hp] at h
    · rcases bp with _ | _
      · -- not primitive: the shape decides
        rcases t with _ | _ | _ | _ | _ | _ | _ | _ | _ | _ |
          ds | fields | ⟨sel, cs, dfl⟩ | ty | ⟨ty, len⟩ | ⟨ty, msz⟩ | ⟨id, od⟩
        case ident =>
          rcases hts : st.typespec id with _ | ty
          · simp only [isBoxed, hp, hts, Option.some.injEq] at h
            subst h
            show (match st.typespec id with
                  | some ty => boxedSpec f st ty
                  | none => some true) = some true
            rw [hts]
          · simp only [isBoxed, hp, hts] at h
            show (match st.typespec id with
                  | some ty => boxedSpec f st ty
                  | none => some true) = some b
            rw [hts]
            exact ih st ty b h
        all_goals first
          | (simp [isPrimO] at hp; done)
          | (simp only [isBoxed, hp, Option.some.injEq] at h; subst h; rfl)
      · -- primitive: never boxed
        simp only [isBoxed, hp, Option.some.injEq] at h
        subst h
        exact prim_not_boxedSpec (f + 1) st t hp

/-- The `Option` arm of `as_token`, inverted: a boxed-optional token means
the inner type rendered and `is_boxed` said true; a plain-optional token
means it said false. -/
theorem asToken_option_boxed (bf : Nat) (st : Symtab) (t : Ty) (tok : Tok) :
    (asToken bf st (.option t) = .ok (.optionBoxed tok) ↔
      (asToken bf st t = .ok tok ∧ isBoxed bf st t = some true)) ∧
    (asToken bf st (.option t) = .ok (.optionPlain tok) ↔
      (asToken bf st t = .ok tok ∧ isBoxed bf st t = some false)) := by
  constructor <;> constructor
  · intro h
    rw [asToken] at h
    rcases ha : asToken bf st t with e | tk <;> rw [ha] at h <;>
      simp only [Bind.bind, Except.bind] at h
    · exact absurd h (by simp)
    · rcases hb : isBoxed bf st t with _ | bb
      · rw [hb] at h
        exact absurd h (by simp)
      · rcases bb with _ | _ <;> rw [hb] at h
        · exact absurd h (by simp)
        · have htk : tk = tok := by simpa using h
          exact ⟨by rw [htk], rfl⟩
  · rintro ⟨ha, hb⟩
    rw [asToken]
    simp only [Bind.bind, Except.bind]
    rw [ha, hb]
  · intro h
    rw [asToken] at h
    rcases ha : asToken bf st t with e | tk <;> rw [ha] at h <;>
      simp only [Bind.bind, Except.bind] at h
    · exact absurd h (by simp)
    · rcases hb : isBoxed bf st t with _ | bb
      · rw [hb] at h
        exact absurd h (by simp)
      · rcases bb with _ | _ <;> rw [hb] at h
        · have htk : tk = tok := by simpa using h
          exact ⟨by rw [htk], rfl⟩
        · exact absurd h (by simp)
  · rintro ⟨ha, hb⟩
    rw [asToken]
    simp only [Bind.bind, Except.bind]
    rw [ha, hb]

/-- Counterexample to C7 as stated: `String` is classified as boxed
(`is_boxed` returns true for it) although it is neither a compound type
nor an `Ident` — the claim's "boxed iff compound or an Ident resolving to
such" misses `String`, `Opaque` and unresolved identifiers. -/
theorem c7_counterexample :
    ¬ (∀ t : Ty, isBoxed 1 ⟨[], [], []⟩ t = some true →
        (∃ ds, t = .enum ds) ∨ (∃ ds, t = .struct ds) ∨
        (∃ s cs d, t = .union s cs d) ∨ (∃ id od, t = .ident id od)) := by
  intro hclaim
  rcases hclaim .string rfl with ⟨ds, hh⟩ | ⟨ds, hh⟩ | ⟨s1, cs, d1, hh⟩ |
    ⟨id, od, hh⟩ <;> exact Ty.noConfusion hh

/-- C7 (amended): `is_boxed` classifies as boxed exactly the compound
types (struct/union/enum), `String`, `Opaque`, and identifiers resolving
through the symbol table to such (unresolved identifiers boxed);
primitives, arrays, flexes and options are not boxed.  Rendering
`Option(t)` wraps the inner token in a heap indirection exactly when t is
boxed, and yields a plain optional exactly when it is not. -/
theorem c7_boxed_amended (f bf : Nat) (st : Symtab) (t : Ty) (b : Bool)
    (tok : Tok) :
    (isBoxed f st t = some b → boxedSpec f st t = some b) ∧
    (asToken bf st (.option t) = .ok (.optionBoxed tok) ↔
      (asToken bf st t = .ok tok ∧ isBoxed bf st t = some true)) ∧
    (asToken bf st (.option t) = .ok (.optionPlain tok) ↔
      (asToken bf st t = .ok tok ∧ isBoxed bf st t = some false)) :=
  ⟨isBoxed_boxedSpec f st t b, (asToken_option_boxed bf st t tok).1,
   (asToken_option_boxed bf st t tok).2⟩

end XdrGen
